import Mathlib

/-!
Formal model of the `replicator` prototype (`src/replicator/main.py`).

The development shallowly embeds the parts of the program the verification
is about: the SHA-256 based chunker (`compute_blobs`), the snapshot scan
(`refresh_db_from_fs` with its helpers), the blob registry
(`db_insert_blobs`), garbage collection of unreferenced blobs, the
local/remote diff (`compare_local_with_remote`), and the bundle ordering
queries of `assign_blobs_to_bundles`.

Byte strings are modelled as `List Nat` (each entry a byte value), SQLite
tables as Lean lists of row structures, and SQL query semantics (three
valued logic for `!=` on nullable columns, `min`/`group by`/`order by`)
as explicit Lean functions.
-/

namespace Replicator

set_option maxRecDepth 100000

/-! ## SHA-256 (the hash used by `hashlib.sha256` in the source) -/

def wordMod : Nat := 4294967296

def rotr32 (n x : Nat) : Nat := ((x >>> n) ||| (x <<< (32 - n))) % wordMod

def bigSigma0 (x : Nat) : Nat := (rotr32 2 x) ^^^ (rotr32 13 x) ^^^ (rotr32 22 x)

def bigSigma1 (x : Nat) : Nat := (rotr32 6 x) ^^^ (rotr32 11 x) ^^^ (rotr32 25 x)

def smallSigma0 (x : Nat) : Nat := (rotr32 7 x) ^^^ (rotr32 18 x) ^^^ (x >>> 3)

def smallSigma1 (x : Nat) : Nat := (rotr32 17 x) ^^^ (rotr32 19 x) ^^^ (x >>> 10)

/-- The 64 SHA-256 round constants, written in decimal. -/
def shaK : List Nat :=
  [1116352408, 1899447441, 3049323471, 3921009573, 961987163, 1508970993,
   2453635748, 2870763221, 3624381080, 310598401, 607225278, 1426881987,
   1925078388, 2162078206, 2614888103, 3248222580, 3835390401, 4022224774,
   264347078, 604807628, 770255983, 1249150122, 1555081692, 1996064986,
   2554220882, 2821834349, 2952996808, 3210313671, 3336571891, 3584528711,
   113926993, 338241895, 666307205, 773529912, 1294757372, 1396182291,
   1695183700, 1986661051, 2177026350, 2456956037, 2730485921, 2820302411,
   3259730800, 3345764771, 3516065817, 3600352804, 4094571909, 275423344,
   430227734, 506948616, 659060556, 883997877, 958139571, 1322822218,
   1537002063, 1747873779, 1955562222, 2024104815, 2227730452, 2361852424,
   2428436474, 2756734187, 3204031479, 3329325298]

/-- The eight SHA-256 initial hash words, written in decimal. -/
def shaInit : List Nat :=
  [1779033703, 3144134277, 1013904242, 2773480762,
   1359893119, 2600822924, 528734635, 1541459225]

/-- Big-endian byte encoding of `x` in `n` bytes. -/
def toBytesBE (n x : Nat) : List Nat :=
  (List.range n).map (fun i => (x >>> (8 * (n - 1 - i))) % 256)

/-- Group a byte list into big-endian 32-bit words (4 bytes per word). -/
def bytesToWords : List Nat → List Nat
  | a :: b :: c :: d :: rest => (((a * 256 + b) * 256 + c) * 256 + d) :: bytesToWords rest
  | _ => []

/-- Extend the 16 words of a message block to the 64-word message schedule. -/
def msgSchedule (ws : List Nat) : List Nat :=
  (List.range 48).foldl
    (fun w _ =>
      let n := w.length
      w ++ [(smallSigma1 (w.getD (n - 2) 0) + w.getD (n - 7) 0 +
             smallSigma0 (w.getD (n - 15) 0) + w.getD (n - 16) 0) % wordMod])
    ws

structure SHAState where
  a : Nat
  b : Nat
  c : Nat
  d : Nat
  e : Nat
  f : Nat
  g : Nat
  h : Nat

def shaRound (st : SHAState) (k w : Nat) : SHAState :=
  let ch := (st.e &&& st.f) ^^^ ((st.e ^^^ 4294967295) &&& st.g)
  let maj := (st.a &&& st.b) ^^^ (st.a &&& st.c) ^^^ (st.b &&& st.c)
  let t1 := (st.h + bigSigma1 st.e + ch + k + w) % wordMod
  let t2 := (bigSigma0 st.a + maj) % wordMod
  ⟨(t1 + t2) % wordMod, st.a, st.b, st.c, (st.d + t1) % wordMod, st.e, st.f, st.g⟩

/-- Compress one 64-byte block into the running hash value (8 words). -/
def processBlock (H : List Nat) (block : List Nat) : List Nat :=
  let w := msgSchedule (bytesToWords block)
  let s0 : SHAState :=
    ⟨H.getD 0 0, H.getD 1 0, H.getD 2 0, H.getD 3 0, H.getD 4 0, H.getD 5 0, H.getD 6 0, H.getD 7 0⟩
  let s := (shaK.zip w).foldl (fun st kw => shaRound st kw.1 kw.2) s0
  [(H.getD 0 0 + s.a) % wordMod, (H.getD 1 0 + s.b) % wordMod, (H.getD 2 0 + s.c) % wordMod,
   (H.getD 3 0 + s.d) % wordMod, (H.getD 4 0 + s.e) % wordMod, (H.getD 5 0 + s.f) % wordMod,
   (H.getD 6 0 + s.g) % wordMod, (H.getD 7 0 + s.h) % wordMod]

/-- Fuel-indexed helper for `chunkList`; the fuel only serves structural
termination and is irrelevant once it is at least the list length. -/
def chunkListAux : Nat → Nat → List Nat → List (List Nat)
  | 0, _, _ => []
  | fuel + 1, B, xs => if xs = [] ∨ B = 0 then [] else xs.take B :: chunkListAux fuel B (xs.drop B)

/-- Split a byte list into consecutive chunks of at most `B` bytes, as the
source's loop `while data := file.read(BLOB_SIZE)` does.  (With `B = 0`,
`file.read(0)` returns the empty byte string and the loop body never runs.) -/
def chunkList (B : Nat) (xs : List Nat) : List (List Nat) :=
  chunkListAux xs.length B xs

/-- SHA-256 of a byte list: pad to a multiple of 64 bytes and compress
block by block. -/
def sha256 (msg : List Nat) : List Nat :=
  let padded := msg ++ [128] ++ List.replicate ((119 - msg.length % 64) % 64) 0 ++
    toBytesBE 8 (msg.length * 8)
  ((chunkList 64 padded).foldl processBlock shaInit).flatMap (toBytesBE 4)

/-! ## Chunker (`compute_blobs`) -/

def BLOB_SIZE : Nat := 15 * 1024 * 1024

/-- `compute_blobs` from the source: split the content into blocks of at
most `B` bytes, record `(sha256 block, length)` per block, and compute the
combined hash as the SHA-256 of the concatenation of the block digests. -/
def compute_blobs (B : Nat) (content : List Nat) : List (List Nat × Nat) × List Nat :=
  let blobs := (chunkList B content).map (fun data => (sha256 data, data.length))
  (blobs, sha256 ((blobs.map (fun hl => hl.1)).flatten))

/-! ## Data model

Paths and digests are byte strings (`List Nat`).  The SQLite tables of the
prototype (`local_files`, `remote_files`, `blobs`, `local_file_blobs`,
`remote_file_blobs`, `bundles`) are lists of row structures; `rowid`
assignment is modelled by fresh-id counters. -/

abbrev BytePath := List Nat

abbrev Digest := List Nat

inductive FileKind where
  | REGULAR
  | LINK
  | DIRECTORY
deriving DecidableEq

/-- `FileMeta` dataclass of the source. -/
structure FileMeta where
  filepath : BytePath
  kind : FileKind
  mtime : Int
  ctime : Int
  size : Nat
  inode : Nat
  executable : Bool
  link_target : Option BytePath
deriving DecidableEq

/-- `DBFileMeta` dataclass of the source: `FileMeta` plus the row id. -/
structure DBFileMeta extends FileMeta where
  id : Nat
deriving DecidableEq

/-- `eq_metadata` from the source: field-by-field comparison of the
`FileMeta` fields (the `id` field is skipped). -/
def eq_metadata (a : FileMeta) (b : DBFileMeta) : Bool :=
  a.filepath == b.filepath && a.kind == b.kind && a.mtime == b.mtime && a.ctime == b.ctime &&
    a.size == b.size && a.inode == b.inode && a.executable == b.executable &&
    a.link_target == b.link_target

/-- A row of the `local_files` table. -/
structure LocalFileRow where
  id : Nat
  filepath : BytePath
  kind : FileKind
  mtime : Int
  ctime : Int
  size : Nat
  inode : Nat
  executable : Bool
  link_target : Option BytePath
  combined_hash : Option Digest
  still_exists : Bool
deriving DecidableEq

/-- A row of the `remote_files` table (the columns the diff query reads). -/
structure RemoteFileRow where
  filepath : BytePath
  kind : FileKind
  mtime : Int
  size : Nat
  executable : Bool
  link_target : Option BytePath
  combined_hash : Option Digest
deriving DecidableEq

/-- A row of the `blobs` table. -/
structure BlobRow where
  id : Nat
  hash : Digest
  size : Nat
  bundle_uuid : Option (List Nat)
deriving DecidableEq

/-- A row of the `bundles` table. -/
structure BundleRow where
  uuid : List Nat
deriving DecidableEq

/-- The database: every table the embedded operations touch, plus fresh-id
counters modelling SQLite rowid assignment.  The association tables
`local_file_blobs` and `remote_file_blobs` hold `(file_id, blob_id)`
pairs. -/
structure DB where
  local_files : List LocalFileRow
  remote_files : List RemoteFileRow
  blobs : List BlobRow
  local_file_blobs : List (Nat × Nat)
  remote_file_blobs : List (Nat × Nat)
  bundles : List BundleRow
  next_file_id : Nat
  next_blob_id : Nat
deriving DecidableEq

/-! ## Blob registry (`db_insert_blobs`, `db_assign_blobs_to_local_file`) -/

/-- One step of `db_insert_blobs`: `insert into blobs(hash, size) ... on
conflict(hash) do nothing` followed by `select id from blobs where hash = ?`. -/
def insert_blob (db : DB) (digest : Digest) (size : Nat) : DB × Nat :=
  match db.blobs.find? (fun b => b.hash == digest) with
  | some b => (db, b.id)
  | none =>
    ({ db with
        blobs := db.blobs ++ [{ id := db.next_blob_id, hash := digest, size := size, bundle_uuid := none }]
        next_blob_id := db.next_blob_id + 1 },
      db.next_blob_id)

/-- `db_insert_blobs` from the source: register each `(digest, size)` pair
and collect the resulting blob ids in order. -/
def db_insert_blobs (db : DB) (blobs : List (Digest × Nat)) : DB × List Nat :=
  match blobs with
  | [] => (db, [])
  | (digest, size) :: rest =>
    let (db1, i) := insert_blob db digest size
    let (db2, is) := db_insert_blobs db1 rest
    (db2, i :: is)

/-- `db_assign_blobs_to_local_file` from the source: delete the file's
association rows, insert the new ones in order, and set the file's
combined hash (update keyed on the file id). -/
def db_assign_blobs_to_local_file (db : DB) (file_id : Nat) (blob_ids : List Nat)
    (combined_hash : Digest) : DB :=
  { db with
    local_file_blobs :=
      (db.local_file_blobs.filter (fun fb => fb.1 != file_id)) ++ blob_ids.map (fun b => (file_id, b))
    local_files := db.local_files.map (fun r =>
      if r.id = file_id then { r with combined_hash := some combined_hash } else r) }

/-! ## Change scanner (`refresh_db_from_fs`) -/

/-- The kind bits of an `lstat` result, as the source's `file_from_stat`
distinguishes them (`S_ISREG` / `S_ISLNK` / `S_ISDIR` / anything else). -/
inductive StatKind where
  | reg
  | lnk
  | dir
  | other
deriving DecidableEq

/-- An `os.stat_result` restricted to the fields the source reads. -/
structure StatResult where
  mode : StatKind
  size : Nat
  mtime : Int
  ctime : Int
  inode : Nat
  nlink : Nat
  executable : Bool
deriving DecidableEq

/-- One file seen by the directory walk: its path relative to the repo
root, its `lstat` result, its symlink target (meaningful only for
symlinks) and its byte content (meaningful only for regular files). -/
structure WalkEntry where
  rel_path : BytePath
  st : StatResult
  link_target : BytePath
  content : List Nat
deriving DecidableEq

/-- `file_from_stat` from the source: classify the stat result; `size` is
kept only for regular files, the link target only for symlinks; an
unknown kind raises. -/
def file_from_stat (e : WalkEntry) : Except String FileMeta :=
  match e.st.mode with
  | .reg => .ok
      { filepath := e.rel_path
        kind := .REGULAR
        mtime := e.st.mtime
        ctime := e.st.ctime
        size := e.st.size
        inode := e.st.inode
        executable := e.st.executable
        link_target := none }
  | .lnk => .ok
      { filepath := e.rel_path
        kind := .LINK
        mtime := e.st.mtime
        ctime := e.st.ctime
        size := 0
        inode := e.st.inode
        executable := e.st.executable
        link_target := some e.link_target }
  | .dir => .ok
      { filepath := e.rel_path
        kind := .DIRECTORY
        mtime := e.st.mtime
        ctime := e.st.ctime
        size := 0
        inode := e.st.inode
        executable := e.st.executable
        link_target := none }
  | .other => .error "Invalid file kind"

/-- `db_try_load_local_file` from the source: `select * from local_files
where filepath = ?` (first matching row) projected onto `DBFileMeta`. -/
def db_try_load_local_file (db : DB) (filepath : BytePath) : Option DBFileMeta :=
  (db.local_files.find? (fun r => r.filepath == filepath)).map (fun r =>
    { id := r.id
      filepath := r.filepath
      kind := r.kind
      mtime := r.mtime
      ctime := r.ctime
      size := r.size
      inode := r.inode
      executable := r.executable
      link_target := r.link_target })

/-- `update local_files set still_exists = 0` at the start of the scan. -/
def mark_all_not_exists (db : DB) : DB :=
  { db with local_files := db.local_files.map (fun r => { r with still_exists := false }) }

/-- `update local_files set still_exists = 1 where filepath = ?`. -/
def mark_exists (db : DB) (filepath : BytePath) : DB :=
  { db with local_files := db.local_files.map (fun r =>
      if r.filepath = filepath then { r with still_exists := true } else r) }

/-- `db_update_local_file` from the source, specialised to the data the
scan passes: set every `FileMeta` column and `still_exists = 1` on each
row with this path; additionally null the combined hash when the kind
changed to a non-regular kind. -/
def db_update_local_file (db : DB) (fs : FileMeta) (null_hash : Bool) : DB :=
  { db with local_files := db.local_files.map (fun r =>
      if r.filepath = fs.filepath then
        { r with
          kind := fs.kind
          mtime := fs.mtime
          ctime := fs.ctime
          size := fs.size
          inode := fs.inode
          executable := fs.executable
          link_target := fs.link_target
          still_exists := true
          combined_hash := if null_hash then none else r.combined_hash }
      else r) }

/-- `db_insert_local_file` from the source: append a fresh row (no
combined hash yet, `still_exists = 1`) and return its id. -/
def db_insert_local_file (db : DB) (fs : FileMeta) : DB × Nat :=
  ({ db with
      local_files := db.local_files ++
        [{ id := db.next_file_id
           filepath := fs.filepath
           kind := fs.kind
           mtime := fs.mtime
           ctime := fs.ctime
           size := fs.size
           inode := fs.inode
           executable := fs.executable
           link_target := fs.link_target
           combined_hash := none
           still_exists := true }]
      next_file_id := db.next_file_id + 1 },
    db.next_file_id)

/-- The scan's running state: the database plus the two counters the
source prints (`num_file_metadata_changes`, `num_file_hash_recomputed`). -/
structure ScanState where
  db : DB
  num_meta : Nat
  num_hash : Nat
deriving DecidableEq

/-- Chunk a file's content and store the result: `compute_blobs` followed
by `db_insert_blobs` and `db_assign_blobs_to_local_file`. -/
def chunk_file (db : DB) (file_id : Nat) (content : List Nat) : DB :=
  let bc := compute_blobs BLOB_SIZE content
  let dbi := db_insert_blobs db bc.1
  db_assign_blobs_to_local_file dbi.1 file_id dbi.2 bc.2

/-- The `else` branch of the scan's per-file comparison: upsert the row,
then rechunk the content if the file is regular and `content_may_be_modified`
(no prior record, or size / mtime / ctime / inode changed). -/
def process_changed (s : ScanState) (e : WalkEntry) (fs : FileMeta) (dbf : Option DBFileMeta) :
    ScanState :=
  let upd : DB × Nat :=
    match dbf with
    | some d => (db_update_local_file s.db fs (decide (fs.kind ≠ d.kind ∧ fs.kind ≠ FileKind.REGULAR)), d.id)
    | none => db_insert_local_file s.db fs
  let content_may_be_modified : Bool :=
    match dbf with
    | none => true
    | some d => decide (fs.size ≠ d.size ∨ fs.mtime ≠ d.mtime ∨ fs.ctime ≠ d.ctime ∨ fs.inode ≠ d.inode)
  if fs.kind = FileKind.REGULAR ∧ content_may_be_modified = true then
    { db := chunk_file upd.1 upd.2 e.content, num_meta := s.num_meta + 1, num_hash := s.num_hash + 1 }
  else
    { db := upd.1, num_meta := s.num_meta + 1, num_hash := s.num_hash }

/-- The body of the scan's walk loop for one file: reject hard links,
classify the stat result, and either mark an unchanged file as still
existing or upsert (and possibly rechunk) it. -/
def process_entry (s : ScanState) (e : WalkEntry) : Except String ScanState :=
  if 1 < e.st.nlink then .error "hard links not supported yet"
  else
    match file_from_stat e with
    | .error msg => .error msg
    | .ok fs =>
      match db_try_load_local_file s.db e.rel_path with
      | some dbf =>
        if eq_metadata fs dbf then .ok { s with db := mark_exists s.db e.rel_path }
        else .ok (process_changed s e fs (some dbf))
      | none => .ok (process_changed s e fs none)

/-- Run the walk loop over the linearised list of files the directory walk
yields. -/
def walk_entries (s : ScanState) : List WalkEntry → Except String ScanState
  | [] => .ok s
  | e :: es =>
    match process_entry s e with
    | .error msg => .error msg
    | .ok s2 => walk_entries s2 es

/-- `delete from local_files where still_exists = 0`.  Modelled from the
spec: the persistence layer (its schema is not part of the source) keeps
the file-to-block association table reference-counted, so deleting a file
row also deletes that file's association rows (`on delete cascade`). -/
def delete_unused_files (db : DB) : DB :=
  let deleted_ids := (db.local_files.filter (fun r => !r.still_exists)).map (fun r => r.id)
  { db with
    local_files := db.local_files.filter (fun r => r.still_exists)
    local_file_blobs := db.local_file_blobs.filter (fun fb => !(deleted_ids.contains fb.1)) }

/-- The scan's final `delete from blobs` statement: drop every blob row
referenced by neither `local_file_blobs` nor `remote_file_blobs`. -/
def garbage_collect_blobs (db : DB) : DB :=
  { db with blobs := db.blobs.filter (fun b =>
      db.local_file_blobs.any (fun fb => fb.2 == b.id) ||
      db.remote_file_blobs.any (fun fb => fb.2 == b.id)) }

/-- `refresh_db_from_fs` from the source: mark every row tentatively
absent, process each walked file, sweep never-seen rows, garbage collect
blobs, and only then commit.  An exception aborts before the commit, so
the committed database is unchanged on error. -/
def refresh_db_from_fs (db : DB) (entries : List WalkEntry) : Except String DB :=
  match walk_entries { db := mark_all_not_exists db, num_meta := 0, num_hash := 0 } entries with
  | .error msg => .error msg
  | .ok s => .ok (garbage_collect_blobs (delete_unused_files s.db))

/-- The database state the store holds after the scan attempt: the scan
runs in one transaction, committed only on success. -/
def committed_after (db : DB) (entries : List WalkEntry) : DB :=
  match refresh_db_from_fs db entries with
  | .ok db2 => db2
  | .error _ => db

/-! ## Diff engine (`compare_local_with_remote`)

SQLite's `!=` on nullable columns follows three-valued logic: a comparison
with `NULL` yields `NULL`, `TRUE or NULL = TRUE`, `FALSE or NULL = NULL`,
and a `WHERE` clause keeps a row only when its condition is `TRUE`. -/

def sqlNe {α : Type} [DecidableEq α] : Option α → Option α → Option Bool
  | some a, some b => some (decide (a ≠ b))
  | _, _ => none

def sqlOr3 : Option Bool → Option Bool → Option Bool
  | some true, _ => some true
  | _, some true => some true
  | some false, some false => some false
  | _, _ => none

def sqlIsTrue : Option Bool → Bool
  | some true => true
  | _ => false

/-- The `WHERE` condition of the modified-files query, column by column
(`kind`, `size`, `mtime`, `executable` are non-null; `combined_hash` and
`link_target` are nullable). -/
def modified_cond (rf : RemoteFileRow) (lf : LocalFileRow) : Bool :=
  sqlIsTrue (sqlOr3 (some (decide (rf.kind ≠ lf.kind)))
    (sqlOr3 (some (decide (rf.size ≠ lf.size)))
      (sqlOr3 (some (decide (rf.mtime ≠ lf.mtime)))
        (sqlOr3 (some (decide (rf.executable ≠ lf.executable)))
          (sqlOr3 (sqlNe rf.combined_hash lf.combined_hash)
            (sqlNe rf.link_target lf.link_target))))))

/-- The new-files query: local paths with no remote row of the same path. -/
def new_files (db : DB) : List BytePath :=
  (db.local_files.filter (fun lf =>
    !(db.remote_files.any (fun rf => rf.filepath == lf.filepath)))).map (fun lf => lf.filepath)

/-- The modified-files query: local paths with a remote row of the same
path whose compared columns satisfy the `!=`-disjunction. -/
def modified_files (db : DB) : List BytePath :=
  (db.local_files.filter (fun lf =>
    db.remote_files.any (fun rf => rf.filepath == lf.filepath && modified_cond rf lf))).map
    (fun lf => lf.filepath)

/-- The deleted-files query: remote paths with no local row of the same path. -/
def deleted_files (db : DB) : List BytePath :=
  (db.remote_files.filter (fun rf =>
    !(db.local_files.any (fun lf => lf.filepath == rf.filepath)))).map (fun rf => rf.filepath)

/-- `compare_local_with_remote` from the source: the three path lists. -/
def compare_local_with_remote (db : DB) : List BytePath × List BytePath × List BytePath :=
  (new_files db, modified_files db, deleted_files db)

/-! ## Bundle packer ordering (`assign_blobs_to_bundles`)

SQLite compares `blob` values bytewise (`memcmp`, a shorter prefix sorts
first); `min(...)` aggregates with that order, and `order by` sorts rows
by the given key (modelled with a stable insertion sort). -/

/-- Bytewise (memcmp-style) comparison of byte strings. -/
def pathLe : List Nat → List Nat → Bool
  | [], _ => true
  | _ :: _, [] => false
  | a :: as, b :: bs => if a < b then true else if b < a then false else pathLe as bs

/-- `min` of two paths in `pathLe` order. -/
def pathMin2 (a b : List Nat) : List Nat := if pathLe a b then a else b

/-- SQL `min(...)` over a group of paths (`NULL` on the empty group). -/
def pathsMin : List (List Nat) → Option (List Nat)
  | [] => none
  | p :: ps => some (ps.foldl pathMin2 p)

/-- `order by` key comparison for nullable paths: `NULL` sorts first. -/
def optPathLe : Option (List Nat) → Option (List Nat) → Bool
  | none, _ => true
  | some _, none => false
  | some a, some b => pathLe a b

/-- Insert into a sorted list, keeping existing equal-key rows first
(stable, as SQLite's sorter behaves deterministically on the scan order). -/
def insertSorted {α : Type} (le : α → α → Bool) (a : α) : List α → List α
  | [] => [a]
  | b :: bs => if le a b then a :: b :: bs else b :: insertSorted le a bs

/-- Stable sort by a boolean comparison, modelling SQL `order by`. -/
def sortByKey {α : Type} (le : α → α → Bool) (l : List α) : List α :=
  l.foldr (insertSorted le) []

/-- A row of the temp table `ordered_blobs`. -/
structure OrderedBlobRow where
  blob_id : Nat
  filepath : BytePath
  bundle_uuid : Option (List Nat)
  hash : Digest
  size : Nat
deriving DecidableEq

/-- The paths produced for one `group by`-group of the `ordered_blobs`
insert: the `local_files.filepath` values of the join rows whose
`local_file_blobs.blob_id` equals `blob_id`. -/
def joined_paths (db : DB) (blob_id : Nat) : List BytePath :=
  (db.local_file_blobs.filter (fun fb => fb.2 == blob_id)).flatMap (fun fb =>
    (db.local_files.filter (fun lf => lf.id == fb.1)).map (fun lf => lf.filepath))

/-- The temp table `ordered_blobs`: one row per blob referenced through
`local_file_blobs` (inner joins with `local_files` and `blobs`), carrying
the lexicographically smallest referencing path, ordered by that path. -/
def ordered_blobs (db : DB) : List OrderedBlobRow :=
  let rows := ((db.local_file_blobs.map (fun fb => fb.2)).dedup).filterMap (fun bid =>
    match db.blobs.find? (fun b => b.id == bid), pathsMin (joined_paths db bid) with
    | some b, some mp =>
      some { blob_id := bid, filepath := mp, bundle_uuid := b.bundle_uuid, hash := b.hash, size := b.size }
    | _, _ => none)
  sortByKey (fun x y => pathLe x.filepath y.filepath) rows

/-- A row of the `ordered_bundles` query result: the bundle uuid, the
smallest `ordered_blobs` path among its member blobs (`NULL` for a bundle
with no member), and the summed member size (`NULL` likewise). -/
structure OrderedBundleRow where
  uuid : List Nat
  min_filepath : Option BytePath
  size : Option Nat
deriving DecidableEq

/-- The `ordered_bundles` query: all bundles (left join), grouped by uuid,
ordered by the smallest member path (`NULL` first, as SQLite sorts). -/
def ordered_bundles (db : DB) : List OrderedBundleRow :=
  let rows : List OrderedBundleRow := db.bundles.map (fun bu =>
    let members := (ordered_blobs db).filter (fun r => r.bundle_uuid == some bu.uuid)
    { uuid := bu.uuid
      min_filepath := pathsMin (members.map (fun r => r.filepath))
      size := match members with
        | [] => none
        | _ => some ((members.map (fun r => r.size)).sum) })
  sortByKey (fun x y => optPathLe x.min_filepath y.min_filepath) rows

/-- Modelled from the spec: the external directory-walking layer (declared
out of scope by the spec, `os.walk` in the source) lists only
regular/symlink entries among the walked filenames, so a walked entry's
`lstat` kind is never a directory. -/
def walk_yields_no_directory (entries : List WalkEntry) : Prop :=
  ∀ e ∈ entries, e.st.mode ≠ StatKind.dir

/-! ## Concrete instances used as test inputs by the theorems below -/

/-- A database with every table empty. -/
def emptyDB : DB :=
  { local_files := []
    remote_files := []
    blobs := []
    local_file_blobs := []
    remote_file_blobs := []
    bundles := []
    next_file_id := 1
    next_blob_id := 1 }

/-- A local row for path `[97]` whose combined hash is set. -/
def lfC2 : LocalFileRow :=
  { id := 1
    filepath := [97]
    kind := .REGULAR
    mtime := 5
    ctime := 6
    size := 4
    inode := 7
    executable := false
    link_target := none
    combined_hash := some [1]
    still_exists := true }

/-- A remote row for the same path `[97]`, identical in every compared
column except that its combined hash is NULL. -/
def rfC2 : RemoteFileRow :=
  { filepath := [97]
    kind := .REGULAR
    mtime := 5
    size := 4
    executable := false
    link_target := none
    combined_hash := none }

/-- The diff-engine test database: one local and one remote row of the
same path differing only in the nullable combined-hash column. -/
def dbC2 : DB := { emptyDB with local_files := [lfC2], remote_files := [rfC2] }

/-- A snapshot row for path `[98]`: regular file, size 3, inode 9. -/
def lfC4 : LocalFileRow :=
  { id := 1
    filepath := [98]
    kind := .REGULAR
    mtime := 1
    ctime := 1
    size := 3
    inode := 9
    executable := false
    link_target := none
    combined_hash := none
    still_exists := false }

/-- The `DBFileMeta` view of `lfC4`, as `db_try_load_local_file` returns it. -/
def dbfC4 : DBFileMeta :=
  { id := 1
    filepath := [98]
    kind := .REGULAR
    mtime := 1
    ctime := 1
    size := 3
    inode := 9
    executable := false
    link_target := none }

/-- A scan state whose snapshot holds just `lfC4`. -/
def sC4 : ScanState :=
  { db := { emptyDB with local_files := [lfC4], next_file_id := 2 }, num_meta := 0, num_hash := 0 }

/-- A walked regular file at path `[98]` whose size and times changed
relative to `lfC4`. -/
def eC4 : WalkEntry :=
  { rel_path := [98]
    st := { mode := .reg, size := 4, mtime := 2, ctime := 2, inode := 9, nlink := 1, executable := false }
    link_target := []
    content := [1, 2, 3, 4] }

/-- A registered blob with digest `[7]`. -/
def blobC5 : BlobRow := { id := 3, hash := [7], size := 2, bundle_uuid := none }

/-- A database whose blob table already holds `blobC5`. -/
def dbC5 : DB := { emptyDB with blobs := [blobC5], next_blob_id := 4 }

/-- A walked file with hard-link count 2. -/
def eC6 : WalkEntry :=
  { rel_path := [99]
    st := { mode := .reg, size := 0, mtime := 0, ctime := 0, inode := 1, nlink := 2, executable := false }
    link_target := []
    content := [] }

/-- A snapshot row at path `[1]` that the walk below never sees. -/
def lfC7 : LocalFileRow :=
  { id := 1
    filepath := [1]
    kind := .REGULAR
    mtime := 0
    ctime := 0
    size := 0
    inode := 1
    executable := false
    link_target := none
    combined_hash := none
    still_exists := true }

/-- A database holding just `lfC7`. -/
def dbC7 : DB := { emptyDB with local_files := [lfC7], next_file_id := 2 }

/-- A walked symlink at the fresh path `[2]`. -/
def eC7 : WalkEntry :=
  { rel_path := [2]
    st := { mode := .lnk, size := 0, mtime := 0, ctime := 0, inode := 5, nlink := 1, executable := false }
    link_target := [3]
    content := [] }

/-- The snapshot committed by scanning `dbC7` against the single entry `eC7`. -/
def db2C7 : DB := committed_after dbC7 [eC7]

/-- A snapshot row at path `[1]` referencing blob 5. -/
def lfC8 : LocalFileRow :=
  { id := 1
    filepath := [1]
    kind := .REGULAR
    mtime := 0
    ctime := 0
    size := 2
    inode := 1
    executable := false
    link_target := none
    combined_hash := some [9]
    still_exists := false }

/-- A walked regular file metadata-identical to `lfC8`. -/
def eC8 : WalkEntry :=
  { rel_path := [1]
    st := { mode := .reg, size := 2, mtime := 0, ctime := 0, inode := 1, nlink := 1, executable := false }
    link_target := []
    content := [] }

/-- A blob still referenced by `lfC8`. -/
def blobC8a : BlobRow := { id := 5, hash := [5], size := 2, bundle_uuid := none }

/-- An orphan blob (no file and no remote reference). -/
def blobC8b : BlobRow := { id := 6, hash := [6], size := 2, bundle_uuid := none }

/-- A database with one referenced and one orphan blob. -/
def dbC8 : DB :=
  { emptyDB with
    local_files := [lfC8]
    blobs := [blobC8a, blobC8b]
    local_file_blobs := [(1, 5)]
    next_file_id := 2
    next_blob_id := 7 }

/-- The snapshot committed by scanning `dbC8` against the single entry `eC8`. -/
def db2C8 : DB := committed_after dbC8 [eC8]

/-- A stale snapshot row of kind directory at path `[4]`. -/
def lfC10 : LocalFileRow :=
  { id := 1
    filepath := [4]
    kind := .DIRECTORY
    mtime := 0
    ctime := 0
    size := 0
    inode := 2
    executable := false
    link_target := none
    combined_hash := none
    still_exists := true }

/-- A database holding just `lfC10`. -/
def dbC10 : DB := { emptyDB with local_files := [lfC10], next_file_id := 2 }

/-- A walked regular file replacing the directory record at `[4]`. -/
def eC10a : WalkEntry :=
  { rel_path := [4]
    st := { mode := .reg, size := 0, mtime := 1, ctime := 1, inode := 3, nlink := 1, executable := false }
    link_target := []
    content := [] }

/-- A walked symlink at the fresh path `[5]`. -/
def eC10b : WalkEntry :=
  { rel_path := [5]
    st := { mode := .lnk, size := 0, mtime := 1, ctime := 1, inode := 4, nlink := 1, executable := true }
    link_target := [6]
    content := [] }

/-- The snapshot committed by scanning `dbC10` against `[eC10a, eC10b]`. -/
def db2C10 : DB := committed_after dbC10 [eC10a, eC10b]

/-- Two files sharing blob 1, the second file also owning blob 2; blob 1
is already assigned to bundle `[77]`. -/
def dbC9 : DB :=
  { emptyDB with
    local_files :=
      [{ lfC7 with id := 1, filepath := [10] }, { lfC7 with id := 2, filepath := [11] }]
    blobs :=
      [{ id := 1, hash := [1], size := 1, bundle_uuid := some [77] },
       { id := 2, hash := [2], size := 1, bundle_uuid := none }]
    local_file_blobs := [(1, 1), (2, 1), (2, 2)]
    bundles := [{ uuid := [77] }]
    next_file_id := 3
    next_blob_id := 3 }

/-! ## Lemmas about the chunker -/

theorem chunkListAux_nil (f B : Nat) : chunkListAux f B [] = [] := by
  cases f <;> simp [chunkListAux]

theorem chunkListAux_zero (f : Nat) (xs : List Nat) : chunkListAux f 0 xs = [] := by
  cases f <;> simp [chunkListAux]

theorem chunkListAux_fuel_irrel (B : Nat) :
    ∀ f g (xs : List Nat), xs.length ≤ f → xs.length ≤ g →
      chunkListAux f B xs = chunkListAux g B xs := by
  intro f
  induction f with
  | zero =>
    intro g xs hf hg
    have hx : xs = [] := List.eq_nil_of_length_eq_zero (Nat.le_zero.mp hf)
    subst hx
    rw [chunkListAux_nil, chunkListAux_nil]
  | succ f ih =>
    intro g xs hf hg
    by_cases hx : xs = []
    · subst hx
      rw [chunkListAux_nil, chunkListAux_nil]
    · by_cases hB : B = 0
      · subst hB
        rw [chunkListAux_zero, chunkListAux_zero]
      · have hlen : 0 < xs.length := List.length_pos.mpr hx
        have hdrop : (xs.drop B).length = xs.length - B := List.length_drop B xs
        cases g with
        | zero => omega
        | succ g =>
          simp only [chunkListAux, if_neg (by simp [hx, hB] : ¬(xs = [] ∨ B = 0))]
          rw [ih g (xs.drop B) (by omega) (by omega)]

theorem chunkListAux_eq_chunkList (B : Nat) (f : Nat) (xs : List Nat) (h : xs.length ≤ f) :
    chunkListAux f B xs = chunkList B xs :=
  chunkListAux_fuel_irrel B f xs.length xs h (Nat.le_refl _)

theorem chunkList_nil (B : Nat) : chunkList B [] = [] := rfl

theorem chunkList_cons (B : Nat) (xs : List Nat) (hx : xs ≠ []) (hB : B ≠ 0) :
    chunkList B xs = xs.take B :: chunkList B (xs.drop B) := by
  have hlen : 0 < xs.length := List.length_pos.mpr hx
  have hdrop : (xs.drop B).length = xs.length - B := List.length_drop B xs
  rw [chunkList]
  cases hxl : xs.length with
  | zero => omega
  | succ m =>
    simp only [chunkListAux, if_neg (by simp [hx, hB] : ¬(xs = [] ∨ B = 0))]
    rw [chunkListAux_eq_chunkList B m (xs.drop B) (by omega)]

theorem chunkList_ne_nil (B : Nat) (xs : List Nat) (hx : xs ≠ []) (hB : B ≠ 0) :
    chunkList B xs ≠ [] := by
  rw [chunkList_cons B xs hx hB]
  exact List.cons_ne_nil _ _

theorem chunkList_single (B : Nat) (xs : List Nat) (hx : xs ≠ []) (hB : B ≠ 0)
    (hle : xs.length ≤ B) : chunkList B xs = [xs] := by
  rw [chunkList_cons B xs hx hB, List.take_of_length_le hle, List.drop_eq_nil_of_le hle,
    chunkList_nil]

theorem chunkList_length (B : Nat) (hB : B ≠ 0) :
    ∀ n (xs : List Nat), xs.length ≤ n → (chunkList B xs).length = (xs.length + B - 1) / B := by
  intro n
  induction n with
  | zero =>
    intro xs h
    have hx : xs = [] := List.eq_nil_of_length_eq_zero (Nat.le_zero.mp h)
    subst hx
    have hdiv : (([] : List Nat).length + B - 1) / B = 0 := Nat.div_eq_of_lt (by simp; omega)
    rw [chunkList_nil, hdiv]
    rfl
  | succ n ih =>
    intro xs h
    by_cases hx : xs = []
    · subst hx
      have hdiv : (([] : List Nat).length + B - 1) / B = 0 := Nat.div_eq_of_lt (by simp; omega)
      rw [chunkList_nil, hdiv]
      rfl
    · have hlen : 0 < xs.length := List.length_pos.mpr hx
      rw [chunkList_cons B xs hx hB]
      by_cases hsmall : xs.length ≤ B
      · rw [List.drop_eq_nil_of_le hsmall, chunkList_nil]
        have hdiv : (xs.length + B - 1) / B = 1 := Nat.div_eq_of_lt_le (by omega) (by omega)
        rw [hdiv]
        rfl
      · have hdrop : (xs.drop B).length = xs.length - B := List.length_drop B xs
        rw [List.length_cons, ih (xs.drop B) (by omega), hdrop]
        have e : xs.length + B - 1 = ((xs.length - B) + B - 1) + B := by omega
        rw [e, Nat.add_div_right _ (by omega : 0 < B)]

theorem chunkList_getD_length (B : Nat) (hB : B ≠ 0) :
    ∀ n (xs : List Nat), xs.length ≤ n → ∀ i, i + 1 < (chunkList B xs).length →
      ((chunkList B xs).getD i []).length = B := by
  intro n
  induction n with
  | zero =>
    intro xs h i hi
    have hx : xs = [] := List.eq_nil_of_length_eq_zero (Nat.le_zero.mp h)
    subst hx
    simp [chunkList_nil] at hi
  | succ n ih =>
    intro xs h i hi
    by_cases hx : xs = []
    · subst hx
      simp [chunkList_nil] at hi
    · rw [chunkList_cons B xs hx hB] at hi ⊢
      by_cases hsmall : xs.length ≤ B
      · rw [List.drop_eq_nil_of_le hsmall, chunkList_nil] at hi
        simp at hi
      · cases i with
        | zero =>
          simp only [List.getD_cons_zero, List.length_take]
          omega
        | succ j =>
          simp only [List.getD_cons_succ]
          have hdrop : (xs.drop B).length = xs.length - B := List.length_drop B xs
          simp only [List.length_cons] at hi
          exact ih (xs.drop B) (by omega) j (by omega)

theorem chunkList_getLast_length (B : Nat) (hB : B ≠ 0) :
    ∀ n (xs : List Nat), xs.length ≤ n → xs.length % B ≠ 0 →
      ((chunkList B xs).getLast?.getD []).length = xs.length % B := by
  intro n
  induction n with
  | zero =>
    intro xs h hm
    have hx : xs = [] := List.eq_nil_of_length_eq_zero (Nat.le_zero.mp h)
    subst hx
    simp at hm
  | succ n ih =>
    intro xs h hm
    by_cases hx : xs = []
    · subst hx
      simp at hm
    · have hlen : 0 < xs.length := List.length_pos.mpr hx
      rw [chunkList_cons B xs hx hB]
      by_cases hsmall : xs.length ≤ B
      · have hlt : xs.length < B := by
          rcases Nat.lt_or_ge xs.length B with h1 | h1
          · exact h1
          · have : xs.length = B := by omega
            rw [this] at hm
            simp at hm
        rw [List.drop_eq_nil_of_le hsmall, chunkList_nil]
        simp [List.getLast?_singleton, List.take_of_length_le hsmall, Nat.mod_eq_of_lt hlt]
      · have hdrop : (xs.drop B).length = xs.length - B := List.length_drop B xs
        have hxd : xs.drop B ≠ [] := by
          intro hc
          rw [hc] at hdrop
          simp at hdrop
          omega
        have hmod : (xs.drop B).length % B = xs.length % B := by
          rw [hdrop]
          have e : (xs.length - B) + B = xs.length := by omega
          calc (xs.length - B) % B = ((xs.length - B) + B) % B := (Nat.add_mod_right _ _).symm
            _ = xs.length % B := by rw [e]
        have htail := chunkList_ne_nil B (xs.drop B) hxd hB
        rcases hc : chunkList B (xs.drop B) with _ | ⟨c, cs⟩
        · exact absurd hc htail
        · rw [List.getLast?_cons_cons]
          have := ih (xs.drop B) (by omega) (by omega)
          rw [hc] at this
          rw [this, hmod]

theorem compute_blobs_fst (B : Nat) (content : List Nat) :
    (compute_blobs B content).1 = (chunkList B content).map (fun data => (sha256 data, data.length)) :=
  rfl

theorem compute_blobs_fst_length (B : Nat) (content : List Nat) :
    (compute_blobs B content).1.length = (chunkList B content).length := by
  rw [compute_blobs_fst, List.length_map]

theorem compute_blobs_getD_snd (B : Nat) (content : List Nat) (i : Nat) :
    ((compute_blobs B content).1.getD i ([], 0)).2 = ((chunkList B content).getD i []).length := by
  rw [compute_blobs_fst, List.getD_eq_getElem?_getD, List.getD_eq_getElem?_getD,
    List.getElem?_map]
  cases (chunkList B content)[i]? <;> rfl

/-- C3: the chunker produces ceil(N/B) fixed-size blocks — every block but
the last has length exactly B, the last has length N mod B when B does not
divide N — and the combined digest is the hash of the concatenated block
digests (and differs, at a concrete input, from the hash of the raw
content). -/
theorem chunker_fixed_size_blocks (B : Nat) (content : List Nat) (hB : 0 < B) :
    ((compute_blobs B content).1.length = (content.length + B - 1) / B) ∧
    (∀ i, i + 1 < (compute_blobs B content).1.length →
      ((compute_blobs B content).1.getD i ([], 0)).2 = B) ∧
    (content.length % B ≠ 0 →
      (((compute_blobs B content).1.getLast?.getD ([], 0)).2 = content.length % B)) ∧
    ((compute_blobs B content).2 =
      sha256 (((compute_blobs B content).1.map (fun hl => hl.1)).flatten)) ∧
    (compute_blobs 3 [0, 1, 2, 3, 4, 5, 6]).2 ≠ sha256 [0, 1, 2, 3, 4, 5, 6] := by
  have hB' : B ≠ 0 := by omega
  refine ⟨?_, ?_, ?_, rfl, by decide⟩
  · rw [compute_blobs_fst_length]
    exact chunkList_length B hB' content.length content (Nat.le_refl _)
  · intro i hi
    rw [compute_blobs_fst_length] at hi
    rw [compute_blobs_getD_snd]
    exact chunkList_getD_length B hB' content.length content (Nat.le_refl _) i hi
  · intro hm
    have hcne : content ≠ [] := by
      intro hc
      subst hc
      simp at hm
    have h1 := chunkList_getLast_length B hB' content.length content (Nat.le_refl _) hm
    have hne : chunkList B content ≠ [] := chunkList_ne_nil B content hcne hB'
    rcases hgl : (chunkList B content).getLast? with _ | c
    · exact absurd (List.getLast?_eq_none_iff.mp hgl) hne
    · rw [hgl] at h1
      rw [compute_blobs_fst, List.getLast?_map, hgl]
      simpa using h1

/-- C1 counterexample: the one-byte file `[0]` fits in a single block
(`BLOB_SIZE` is 15 MiB), yet its combined hash is not that block's digest
— `compute_blobs` always hashes the concatenation of the block digests,
so for one block it returns `sha256 (sha256 content)`. -/
theorem combined_hash_single_block_counterexample :
    (compute_blobs BLOB_SIZE [0]).1.length = 1 ∧
    (compute_blobs BLOB_SIZE [0]).2 ≠ ((compute_blobs BLOB_SIZE [0]).1.getD 0 ([], 0)).1 := by
  constructor
  · decide
  · decide

/-- C1 (amended): the combined hash is always the digest of the
concatenation of the per-block digests in chunk order; in particular a
file that fits one block gets `sha256 (sha256 content)` — the digest of
its single block digest — not the block digest itself. -/
theorem combined_hash_is_digest_of_block_digests (B : Nat) (content : List Nat) (hB : 0 < B) :
    ((compute_blobs B content).2 =
      sha256 (((compute_blobs B content).1.map (fun hl => hl.1)).flatten)) ∧
    (content ≠ [] → content.length ≤ B →
      (compute_blobs B content).1 = [(sha256 content, content.length)] ∧
      (compute_blobs B content).2 = sha256 (sha256 content)) := by
  refine ⟨rfl, fun hne hle => ?_⟩
  have hsingle : chunkList B content = [content] :=
    chunkList_single B content hne (by omega) hle
  constructor
  · rw [compute_blobs_fst, hsingle]
    rfl
  · show sha256 (((chunkList B content).map (fun data => (sha256 data, data.length))).map
      (fun hl => hl.1)).flatten = sha256 (sha256 content)
    rw [hsingle]
    simp

theorem combined_hash_is_digest_of_block_digests_witness :
    (0 < 2) ∧
    (((compute_blobs 2 [0]).2 =
      sha256 (((compute_blobs 2 [0]).1.map (fun hl => hl.1)).flatten)) ∧
    ([0] ≠ ([] : List Nat) → ([0] : List Nat).length ≤ 2 →
      (compute_blobs 2 [0]).1 = [(sha256 [0], ([0] : List Nat).length)] ∧
      (compute_blobs 2 [0]).2 = sha256 (sha256 [0]))) :=
  ⟨by decide, combined_hash_is_digest_of_block_digests 2 [0] (by decide)⟩

theorem chunker_fixed_size_blocks_witness :
    (0 < 3) ∧
    (((compute_blobs 3 [0, 1, 2, 3, 4, 5, 6, 7]).1.length = (8 + 3 - 1) / 3) ∧
    (∀ i, i + 1 < (compute_blobs 3 [0, 1, 2, 3, 4, 5, 6, 7]).1.length →
      ((compute_blobs 3 [0, 1, 2, 3, 4, 5, 6, 7]).1.getD i ([], 0)).2 = 3) ∧
    ((8 : Nat) % 3 ≠ 0 →
      (((compute_blobs 3 [0, 1, 2, 3, 4, 5, 6, 7]).1.getLast?.getD ([], 0)).2 = 8 % 3)) ∧
    ((compute_blobs 3 [0, 1, 2, 3, 4, 5, 6, 7]).2 =
      sha256 (((compute_blobs 3 [0, 1, 2, 3, 4, 5, 6, 7]).1.map (fun hl => hl.1)).flatten)) ∧
    (compute_blobs 3 [0, 1, 2, 3, 4, 5, 6]).2 ≠ sha256 [0, 1, 2, 3, 4, 5, 6]) :=
  ⟨by decide, chunker_fixed_size_blocks 3 [0, 1, 2, 3, 4, 5, 6, 7] (by decide)⟩

/-! ## Lemmas about the diff engine -/

theorem sqlIsTrue_some (b : Bool) : sqlIsTrue (some b) = b := by
  cases b <;> rfl

theorem sqlIsTrue_sqlOr3 (x y : Option Bool) :
    sqlIsTrue (sqlOr3 x y) = (sqlIsTrue x || sqlIsTrue y) := by
  revert x y
  decide

theorem sqlIsTrue_none : sqlIsTrue none = false := rfl

theorem sqlIsTrue_sqlNe {α : Type} [DecidableEq α] (a b : Option α) :
    sqlIsTrue (sqlNe a b) = true ↔ ∃ x y, a = some x ∧ b = some y ∧ x ≠ y := by
  cases a <;> cases b <;> simp [sqlNe, sqlIsTrue_none, sqlIsTrue_some]

theorem modified_cond_iff (rf : RemoteFileRow) (lf : LocalFileRow) :
    modified_cond rf lf = true ↔
      (rf.kind ≠ lf.kind ∨ rf.size ≠ lf.size ∨ rf.mtime ≠ lf.mtime ∨
       rf.executable ≠ lf.executable ∨
       (∃ x y, rf.combined_hash = some x ∧ lf.combined_hash = some y ∧ x ≠ y) ∨
       (∃ x y, rf.link_target = some x ∧ lf.link_target = some y ∧ x ≠ y)) := by
  unfold modified_cond
  rw [sqlIsTrue_sqlOr3, sqlIsTrue_sqlOr3, sqlIsTrue_sqlOr3, sqlIsTrue_sqlOr3, sqlIsTrue_sqlOr3]
  simp [sqlIsTrue_some, sqlIsTrue_sqlNe]

theorem mem_new_files (db : DB) (p : BytePath) :
    p ∈ new_files db ↔
      ∃ lf ∈ db.local_files, lf.filepath = p ∧ ∀ rf ∈ db.remote_files, rf.filepath ≠ p := by
  simp only [new_files, List.mem_map, List.mem_filter, Bool.not_eq_true', List.any_eq_false,
    beq_eq_false_iff_ne, ne_eq]
  constructor
  · rintro ⟨lf, ⟨hmem, hall⟩, hp⟩
    subst hp
    exact ⟨lf, hmem, rfl, fun rf hrf => by simpa using hall rf hrf⟩
  · rintro ⟨lf, hmem, hp, hall⟩
    subst hp
    exact ⟨lf, ⟨hmem, fun rf hrf => by simpa using hall rf hrf⟩, rfl⟩

theorem mem_modified_files (db : DB) (p : BytePath) :
    p ∈ modified_files db ↔
      ∃ lf ∈ db.local_files, lf.filepath = p ∧
        ∃ rf ∈ db.remote_files, rf.filepath = p ∧ modified_cond rf lf = true := by
  simp only [modified_files, List.mem_map, List.mem_filter, List.any_eq_true, Bool.and_eq_true,
    beq_iff_eq]
  constructor
  · rintro ⟨lf, ⟨hmem, rf, hrf, hpeq, hcond⟩, hp⟩
    subst hp
    exact ⟨lf, hmem, rfl, rf, hrf, hpeq, hcond⟩
  · rintro ⟨lf, hmem, hp, rf, hrf, hpeq, hcond⟩
    subst hp
    exact ⟨lf, ⟨hmem, rf, hrf, hpeq, hcond⟩, rfl⟩

theorem mem_deleted_files (db : DB) (p : BytePath) :
    p ∈ deleted_files db ↔
      ∃ rf ∈ db.remote_files, rf.filepath = p ∧ ∀ lf ∈ db.local_files, lf.filepath ≠ p := by
  simp only [deleted_files, List.mem_map, List.mem_filter, Bool.not_eq_true', List.any_eq_false,
    beq_eq_false_iff_ne, ne_eq]
  constructor
  · rintro ⟨rf, ⟨hmem, hall⟩, hp⟩
    subst hp
    exact ⟨rf, hmem, rfl, fun lf hlf => by simpa using hall lf hlf⟩
  · rintro ⟨rf, hmem, hp, hall⟩
    subst hp
    exact ⟨rf, ⟨hmem, fun lf hlf => by simpa using hall lf hlf⟩, rfl⟩

/-- C2 counterexample: the path `[97]` is present in both snapshots and
its combined hash differs (NULL remotely, set locally), yet the diff
places it in none of the three sets — under SQL three-valued logic a
`!=` against NULL never satisfies the `WHERE` clause. -/
theorem diff_null_semantics_counterexample :
    (∃ lf ∈ dbC2.local_files, lf.filepath = [97]) ∧
    (∃ rf ∈ dbC2.remote_files, rf.filepath = [97]) ∧
    rfC2.combined_hash ≠ lfC2.combined_hash ∧
    [97] ∉ modified_files dbC2 ∧
    [97] ∉ new_files dbC2 ∧
    [97] ∉ deleted_files dbC2 := by
  refine ⟨⟨lfC2, by simp [dbC2, emptyDB], rfl⟩, ⟨rfC2, by simp [dbC2, emptyDB], rfl⟩, ?_, ?_, ?_, ?_⟩
  · simp [rfC2, lfC2]
  · simp [modified_files, dbC2, emptyDB, modified_cond, sqlNe, sqlOr3, sqlIsTrue, rfC2, lfC2]
  · simp [new_files, dbC2, emptyDB, rfC2, lfC2]
  · simp [deleted_files, dbC2, emptyDB, rfC2, lfC2]

/-- C2 (amended): the three sets are pairwise disjoint, and a path present
in both snapshots is in the modified set iff one of kind, size, mtime or
executable differs, or combined hash or symlink target differ with both
values present — a comparison in which either side is NULL never marks the
path modified (SQL three-valued logic). -/
theorem diff_sets_disjoint_and_modified_iff (db : DB)
    (hl : (db.local_files.map (fun r => r.filepath)).Nodup)
    (hr : (db.remote_files.map (fun r => r.filepath)).Nodup) :
    (∀ p, ¬(p ∈ new_files db ∧ p ∈ modified_files db)) ∧
    (∀ p, ¬(p ∈ new_files db ∧ p ∈ deleted_files db)) ∧
    (∀ p, ¬(p ∈ modified_files db ∧ p ∈ deleted_files db)) ∧
    (∀ lf ∈ db.local_files, ∀ rf ∈ db.remote_files, lf.filepath = rf.filepath →
      (lf.filepath ∈ modified_files db ↔
        (rf.kind ≠ lf.kind ∨ rf.size ≠ lf.size ∨ rf.mtime ≠ lf.mtime ∨
         rf.executable ≠ lf.executable ∨
         (∃ x y, rf.combined_hash = some x ∧ lf.combined_hash = some y ∧ x ≠ y) ∨
         (∃ x y, rf.link_target = some x ∧ lf.link_target = some y ∧ x ≠ y)))) := by
  refine ⟨?_, ?_, ?_, ?_⟩
  · rintro p ⟨hn, hm⟩
    obtain ⟨lf, _, hp, hall⟩ := (mem_new_files db p).mp hn
    obtain ⟨lf', _, hp', rf, hrf, hpeq, _⟩ := (mem_modified_files db p).mp hm
    exact hall rf hrf hpeq
  · rintro p ⟨hn, hd⟩
    obtain ⟨lf, hlf, hp, _⟩ := (mem_new_files db p).mp hn
    obtain ⟨rf, _, hp', hall⟩ := (mem_deleted_files db p).mp hd
    exact hall lf hlf hp
  · rintro p ⟨hm, hd⟩
    obtain ⟨lf, hlf, hp, _⟩ := (mem_modified_files db p).mp hm
    obtain ⟨rf, _, hp', hall⟩ := (mem_deleted_files db p).mp hd
    exact hall lf hlf hp
  · intro lf hlf rf hrf hpeq
    constructor
    · intro hm
      obtain ⟨lf', hlf', hp', rf', hrf', hpeq', hcond⟩ := (mem_modified_files db _).mp hm
      have hlf'' : lf' = lf := List.inj_on_of_nodup_map hl hlf' hlf hp'
      have hrf'' : rf' = rf := List.inj_on_of_nodup_map hr hrf' hrf (by rw [hpeq']; exact hpeq)
      rw [hlf'', hrf''] at hcond
      exact (modified_cond_iff rf lf).mp hcond
    · intro hdiff
      exact (mem_modified_files db _).mpr
        ⟨lf, hlf, rfl, rf, hrf, hpeq.symm, (modified_cond_iff rf lf).mpr hdiff⟩

theorem diff_sets_disjoint_and_modified_iff_witness :
    ((dbC2.local_files.map (fun r => r.filepath)).Nodup ∧
     (dbC2.remote_files.map (fun r => r.filepath)).Nodup) ∧
    ((∀ p, ¬(p ∈ new_files dbC2 ∧ p ∈ modified_files dbC2)) ∧
     (∀ p, ¬(p ∈ new_files dbC2 ∧ p ∈ deleted_files dbC2)) ∧
     (∀ p, ¬(p ∈ modified_files dbC2 ∧ p ∈ deleted_files dbC2)) ∧
     (∀ lf ∈ dbC2.local_files, ∀ rf ∈ dbC2.remote_files, lf.filepath = rf.filepath →
       (lf.filepath ∈ modified_files dbC2 ↔
         (rf.kind ≠ lf.kind ∨ rf.size ≠ lf.size ∨ rf.mtime ≠ lf.mtime ∨
          rf.executable ≠ lf.executable ∨
          (∃ x y, rf.combined_hash = some x ∧ lf.combined_hash = some y ∧ x ≠ y) ∨
          (∃ x y, rf.link_target = some x ∧ lf.link_target = some y ∧ x ≠ y))))) :=
  ⟨⟨by decide, by decide⟩, diff_sets_disjoint_and_modified_iff dbC2 (by decide) (by decide)⟩

/-! ## Lemmas about the blob registry -/

theorem find?_blobs_eq (blobs : List BlobRow) (digest : Digest) (b : BlobRow)
    (hnd : (blobs.map (fun x => x.hash)).Nodup) (hb : b ∈ blobs) (hh : b.hash = digest) :
    blobs.find? (fun x => x.hash == digest) = some b := by
  induction blobs with
  | nil => simp at hb
  | cons h0 t ih =>
    rw [List.map_cons, List.nodup_cons] at hnd
    rcases List.mem_cons.mp hb with hb0 | hbt
    · subst hb0
      simp [List.find?_cons, hh]
    · have hne : (h0.hash == digest) = false := by
        apply beq_eq_false_iff_ne.mpr
        intro hc
        exact hnd.1 (by rw [hc, ← hh]; exact List.mem_map_of_mem _ hbt)
      rw [List.find?_cons, hne]
      exact ih hnd.2 hbt

/-- C5: registering an already-present digest is a no-op that returns the
existing row's id, and registering the same digest twice in a row leaves
the table unchanged the second time and returns the same id — so byte
identical blocks always share one block id. -/
theorem register_blob_idempotent (db : DB) (digest : Digest) (s1 s2 : Nat)
    (hnd : (db.blobs.map (fun b => b.hash)).Nodup) :
    (∀ b ∈ db.blobs, b.hash = digest → insert_blob db digest s1 = (db, b.id)) ∧
    (insert_blob (insert_blob db digest s1).1 digest s2 =
      ((insert_blob db digest s1).1, (insert_blob db digest s1).2)) := by
  constructor
  · intro b hb hh
    unfold insert_blob
    rw [find?_blobs_eq db.blobs digest b hnd hb hh]
  · rcases hf : db.blobs.find? (fun x => x.hash == digest) with _ | b
    · have h1 : insert_blob db digest s1 =
          ({ db with
              blobs := db.blobs ++ [{ id := db.next_blob_id, hash := digest, size := s1, bundle_uuid := none }]
              next_blob_id := db.next_blob_id + 1 },
            db.next_blob_id) := by
        unfold insert_blob
        rw [hf]
      rw [h1]
      unfold insert_blob
      rw [List.find?_append, hf]
      simp [List.find?_cons]
    · have h1 : insert_blob db digest s1 = (db, b.id) := by
        unfold insert_blob
        rw [hf]
      have h2 : insert_blob db digest s2 = (db, b.id) := by
        unfold insert_blob
        rw [hf]
      rw [h1, h2]

theorem register_blob_idempotent_witness :
    ((dbC5.blobs.map (fun b => b.hash)).Nodup) ∧
    ((∀ b ∈ dbC5.blobs, b.hash = [7] → insert_blob dbC5 [7] 5 = (dbC5, b.id)) ∧
     (insert_blob (insert_blob dbC5 [7] 5).1 [7] 6 =
       ((insert_blob dbC5 [7] 5).1, (insert_blob dbC5 [7] 5).2))) :=
  ⟨by decide, register_blob_idempotent dbC5 [7] 5 6 (by decide)⟩

/-! ## Lemmas about the rechunking decision of the scan -/

/-- C4: for a walked regular file (no hard link), the scan rechunks the
content exactly when there is no prior snapshot record or one of size,
mtime, ctime or inode differs from it — a metadata-only change such as a
flipped executable bit never triggers rechunking. -/
theorem rechunk_iff_stat_changed (s : ScanState) (e : WalkEntry)
    (hn : ¬ 1 < e.st.nlink) (hk : e.st.mode = StatKind.reg) :
    (∀ dbf, db_try_load_local_file s.db e.rel_path = some dbf →
      ∃ s', process_entry s e = .ok s' ∧
        s'.num_hash = (if e.st.size ≠ dbf.size ∨ e.st.mtime ≠ dbf.mtime ∨
            e.st.ctime ≠ dbf.ctime ∨ e.st.inode ≠ dbf.inode
          then s.num_hash + 1 else s.num_hash)) ∧
    (db_try_load_local_file s.db e.rel_path = none →
      ∃ s', process_entry s e = .ok s' ∧ s'.num_hash = s.num_hash + 1) := by
  have hfs : file_from_stat e = .ok
      { filepath := e.rel_path
        kind := .REGULAR
        mtime := e.st.mtime
        ctime := e.st.ctime
        size := e.st.size
        inode := e.st.inode
        executable := e.st.executable
        link_target := none } := by
    unfold file_from_stat
    rw [hk]
  constructor
  · intro dbf hload
    by_cases heq : eq_metadata
        { filepath := e.rel_path
          kind := .REGULAR
          mtime := e.st.mtime
          ctime := e.st.ctime
          size := e.st.size
          inode := e.st.inode
          executable := e.st.executable
          link_target := none } dbf
    · refine ⟨{ s with db := mark_exists s.db e.rel_path }, ?_, ?_⟩
      · simp only [process_entry, hfs, hload, heq, if_neg hn, if_true]
      · simp only [eq_metadata, Bool.and_eq_true, beq_iff_eq] at heq
        rw [if_neg]
        push_neg
        exact ⟨heq.1.1.1.2, heq.1.1.1.1.1.2, heq.1.1.1.1.2, heq.1.1.2⟩
    · refine ⟨process_changed s e
          ⟨e.rel_path, .REGULAR, e.st.mtime, e.st.ctime, e.st.size, e.st.inode,
            e.st.executable, none⟩ (some dbf), ?_, ?_⟩
      · simp only [process_entry, hfs, hload, if_neg hn]
        rw [if_neg heq]
      · by_cases hc : e.st.size ≠ dbf.size ∨ e.st.mtime ≠ dbf.mtime ∨
            e.st.ctime ≠ dbf.ctime ∨ e.st.inode ≠ dbf.inode
        · rw [if_pos hc]
          simp [process_changed, hc]
        · rw [if_neg hc]
          simp [process_changed, hc]
  · intro hload
    refine ⟨process_changed s e
        ⟨e.rel_path, .REGULAR, e.st.mtime, e.st.ctime, e.st.size, e.st.inode,
          e.st.executable, none⟩ none, ?_, ?_⟩
    · simp only [process_entry, hfs, hload, if_neg hn]
    · simp [process_changed]

theorem rechunk_iff_stat_changed_witness :
    (¬ 1 < eC4.st.nlink) ∧
    ((∀ dbf, db_try_load_local_file sC4.db eC4.rel_path = some dbf →
      ∃ s', process_entry sC4 eC4 = .ok s' ∧
        s'.num_hash = (if eC4.st.size ≠ dbf.size ∨ eC4.st.mtime ≠ dbf.mtime ∨
            eC4.st.ctime ≠ dbf.ctime ∨ eC4.st.inode ≠ dbf.inode
          then sC4.num_hash + 1 else sC4.num_hash)) ∧
    (db_try_load_local_file sC4.db eC4.rel_path = none →
      ∃ s', process_entry sC4 eC4 = .ok s' ∧ s'.num_hash = sC4.num_hash + 1)) :=
  ⟨by decide, rechunk_iff_stat_changed sC4 eC4 (by decide) (by decide)⟩

/-! ## Lemmas about the scan walk -/

theorem process_entry_hardlink (s : ScanState) (e : WalkEntry) (h : 1 < e.st.nlink) :
    process_entry s e = .error "hard links not supported yet" := by
  simp [process_entry, h]

theorem walk_entries_error (es : List WalkEntry) :
    ∀ s, (∃ e ∈ es, 1 < e.st.nlink) → ∃ msg, walk_entries s es = .error msg := by
  induction es with
  | nil =>
    rintro s ⟨e, he, _⟩
    simp at he
  | cons e es ih =>
    rintro s ⟨e', he', hn⟩
    rcases List.mem_cons.mp he' with rfl | htail
    · exact ⟨"hard links not supported yet",
        by simp [walk_entries, process_entry_hardlink s e' hn]⟩
    · rcases hpe : process_entry s e with msg | s2
      · exact ⟨msg, by simp [walk_entries, hpe]⟩
      · obtain ⟨msg, hmsg⟩ := ih s2 ⟨e', htail, hn⟩
        exact ⟨msg, by simp [walk_entries, hpe, hmsg]⟩

/-- C6: a walked file with hard-link count above 1 makes the scan fail,
and the failed scan commits nothing — the stored snapshot is unchanged. -/
theorem hardlink_aborts_scan (db : DB) (entries : List WalkEntry)
    (h : ∃ e ∈ entries, 1 < e.st.nlink) :
    (∃ msg, refresh_db_from_fs db entries = .error msg) ∧
    committed_after db entries = db := by
  obtain ⟨msg, hmsg⟩ := walk_entries_error entries ⟨mark_all_not_exists db, 0, 0⟩ h
  refine ⟨⟨msg, ?_⟩, ?_⟩
  · unfold refresh_db_from_fs
    rw [hmsg]
  · unfold committed_after refresh_db_from_fs
    rw [hmsg]

theorem hardlink_aborts_scan_witness :
    (∃ e ∈ [eC6], 1 < e.st.nlink) ∧
    ((∃ msg, refresh_db_from_fs emptyDB [eC6] = .error msg) ∧
     committed_after emptyDB [eC6] = emptyDB) :=
  ⟨by decide, hardlink_aborts_scan emptyDB [eC6] (by decide)⟩

theorem file_from_stat_filepath (e : WalkEntry) (fs : FileMeta)
    (h : file_from_stat e = .ok fs) : fs.filepath = e.rel_path := by
  unfold file_from_stat at h
  cases hm : e.st.mode <;> rw [hm] at h <;> simp at h <;> rw [← h]

theorem file_from_stat_kind (e : WalkEntry) (fs : FileMeta)
    (h : file_from_stat e = .ok fs) (hd : e.st.mode ≠ StatKind.dir) :
    fs.kind = FileKind.REGULAR ∨ fs.kind = FileKind.LINK := by
  unfold file_from_stat at h
  cases hm : e.st.mode <;> rw [hm] at h <;> simp at h
  · left
    rw [← h]
  · right
    rw [← h]
  · exact absurd hm hd

/-- Dissect a successful `process_entry` step into its three branches. -/
theorem process_entry_cases (s s' : ScanState) (e : WalkEntry)
    (h : process_entry s e = .ok s') :
    ∃ fs : FileMeta, file_from_stat e = .ok fs ∧
      ((∃ dbf, db_try_load_local_file s.db e.rel_path = some dbf ∧ eq_metadata fs dbf = true ∧
          s' = { s with db := mark_exists s.db e.rel_path }) ∨
       (∃ dbf, db_try_load_local_file s.db e.rel_path = some dbf ∧
          s' = process_changed s e fs (some dbf)) ∨
       (db_try_load_local_file s.db e.rel_path = none ∧
          s' = process_changed s e fs none)) := by
  unfold process_entry at h
  by_cases hn : 1 < e.st.nlink
  · rw [if_pos hn] at h
    exact absurd h (by simp)
  · rw [if_neg hn] at h
    rcases hfs : file_from_stat e with msg | fs
    · rw [hfs] at h
      exact absurd h (by simp)
    · rw [hfs] at h
      dsimp only at h
      refine ⟨fs, rfl, ?_⟩
      rcases hload : db_try_load_local_file s.db e.rel_path with _ | dbf
      · rw [hload] at h
        dsimp only at h
        exact Or.inr (Or.inr ⟨rfl, (Except.ok.injEq _ _).mp h.symm⟩)
      · rw [hload] at h
        dsimp only at h
        by_cases heq : eq_metadata fs dbf = true
        · rw [if_pos heq] at h
          exact Or.inl ⟨dbf, rfl, heq, (Except.ok.injEq _ _).mp h.symm⟩
        · rw [if_neg heq] at h
          exact Or.inr (Or.inl ⟨dbf, rfl, (Except.ok.injEq _ _).mp h.symm⟩)

theorem db_insert_blobs_cons (db : DB) (digest : Digest) (size : Nat) (bs : List (Digest × Nat)) :
    db_insert_blobs db ((digest, size) :: bs) =
      ((db_insert_blobs (insert_blob db digest size).1 bs).1,
       (insert_blob db digest size).2 :: (db_insert_blobs (insert_blob db digest size).1 bs).2) := by
  rw [db_insert_blobs]

theorem db_insert_blobs_preserves (db : DB) (bs : List (Digest × Nat)) :
    (db_insert_blobs db bs).1.local_files = db.local_files ∧
    (db_insert_blobs db bs).1.local_file_blobs = db.local_file_blobs ∧
    (db_insert_blobs db bs).1.remote_file_blobs = db.remote_file_blobs := by
  induction bs generalizing db with
  | nil => exact ⟨rfl, rfl, rfl⟩
  | cons b bs ih =>
    rcases b with ⟨digest, size⟩
    rw [db_insert_blobs_cons]
    dsimp only
    have hi : (insert_blob db digest size).1.local_files = db.local_files ∧
        (insert_blob db digest size).1.local_file_blobs = db.local_file_blobs ∧
        (insert_blob db digest size).1.remote_file_blobs = db.remote_file_blobs := by
      unfold insert_blob
      split <;> exact ⟨rfl, rfl, rfl⟩
    obtain ⟨h1, h2, h3⟩ := ih (insert_blob db digest size).1
    rw [h1, h2, h3, hi.1, hi.2.1, hi.2.2]
    exact ⟨rfl, rfl, rfl⟩

theorem chunk_file_facts (db : DB) (fid : Nat) (content : List Nat) :
    (chunk_file db fid content).local_files = db.local_files.map (fun r =>
      if r.id = fid then { r with combined_hash := some (compute_blobs BLOB_SIZE content).2 }
      else r) ∧
    ((chunk_file db fid content).local_file_blobs =
      (db.local_file_blobs.filter (fun fb => fb.1 != fid)) ++
        ((db_insert_blobs db (compute_blobs BLOB_SIZE content).1).2.map (fun b => (fid, b)))) ∧
    (chunk_file db fid content).remote_file_blobs = db.remote_file_blobs := by
  obtain ⟨h1, h2, h3⟩ := db_insert_blobs_preserves db (compute_blobs BLOB_SIZE content).1
  unfold chunk_file db_assign_blobs_to_local_file
  constructor
  · simp only [h1]
  · constructor
    · simp only [h2]
    · simp only [h3]

theorem db_try_load_mem (db : DB) (p : BytePath) (dbf : DBFileMeta)
    (h : db_try_load_local_file db p = some dbf) :
    ∃ r ∈ db.local_files, r.filepath = p ∧ dbf.id = r.id ∧ dbf.kind = r.kind := by
  unfold db_try_load_local_file at h
  rcases hf : db.local_files.find? (fun r => r.filepath == p) with _ | r0
  · rw [hf] at h
    simp at h
  · rw [hf] at h
    have hmem := List.mem_of_find?_eq_some hf
    have hpred := List.find?_some hf
    simp only [beq_iff_eq] at hpred
    have h2 : dbf =
        { id := r0.id
          filepath := r0.filepath
          kind := r0.kind
          mtime := r0.mtime
          ctime := r0.ctime
          size := r0.size
          inode := r0.inode
          executable := r0.executable
          link_target := r0.link_target } := by
      have h3 : some
          ({ id := r0.id
             filepath := r0.filepath
             kind := r0.kind
             mtime := r0.mtime
             ctime := r0.ctime
             size := r0.size
             inode := r0.inode
             executable := r0.executable
             link_target := r0.link_target } : DBFileMeta) = some dbf := h
      exact (Option.some.injEq _ _).mp h3 |>.symm
    refine ⟨r0, hmem, hpred, ?_, ?_⟩
    · rw [h2]
    · rw [h2]

/-- In the update branch, the snapshot rows of `process_changed` are an
image of the old rows under a function preserving path and id, setting
`still_exists` (and the kind) on the rows at the file's path. -/
theorem process_changed_some_local_files (s : ScanState) (e : WalkEntry) (fs : FileMeta)
    (d : DBFileMeta) :
    ∃ hmap : LocalFileRow → LocalFileRow,
      (process_changed s e fs (some d)).db.local_files = s.db.local_files.map hmap ∧
      ∀ r : LocalFileRow,
        (hmap r).filepath = r.filepath ∧ (hmap r).id = r.id ∧
        ((hmap r).still_exists = true → r.still_exists = true ∨ r.filepath = fs.filepath) ∧
        (r.still_exists = true → (hmap r).still_exists = true) ∧
        ((hmap r).kind = r.kind ∨ (hmap r).kind = fs.kind) ∧
        (r.filepath = fs.filepath → (hmap r).still_exists = true ∧ (hmap r).kind = fs.kind) := by
  unfold process_changed
  dsimp only
  split
  · show ∃ hmap,
      (chunk_file (db_update_local_file s.db fs
        (decide (fs.kind ≠ d.kind ∧ fs.kind ≠ FileKind.REGULAR))) d.id e.content).local_files =
        s.db.local_files.map hmap ∧ _
    rw [(chunk_file_facts _ _ _).1]
    unfold db_update_local_file
    dsimp only
    rw [List.map_map]
    refine ⟨_, rfl, fun r => ?_⟩
    simp only [Function.comp_apply]
    by_cases hp : r.filepath = fs.filepath <;> by_cases hi : r.id = d.id <;>
      simp [hp, hi]
  · unfold db_update_local_file
    dsimp only
    refine ⟨_, rfl, fun r => ?_⟩
    by_cases hp : r.filepath = fs.filepath <;> simp [hp]

/-- In the insert branch, the snapshot rows of `process_changed` are the
old rows (combined hash possibly updated) plus one fresh row at the
file's path. -/
theorem process_changed_none_local_files (s : ScanState) (e : WalkEntry) (fs : FileMeta) :
    ∃ (hmap : LocalFileRow → LocalFileRow) (tail : LocalFileRow),
      (process_changed s e fs none).db.local_files = s.db.local_files.map hmap ++ [tail] ∧
      (∀ r, (hmap r).filepath = r.filepath ∧ (hmap r).id = r.id ∧
        (hmap r).still_exists = r.still_exists ∧ (hmap r).kind = r.kind) ∧
      tail.filepath = fs.filepath ∧ tail.id = s.db.next_file_id ∧
      tail.still_exists = true ∧ tail.kind = fs.kind := by
  unfold process_changed
  dsimp only
  split
  · show ∃ hmap tail,
      (chunk_file (db_insert_local_file s.db fs).1 (db_insert_local_file s.db fs).2
        e.content).local_files = s.db.local_files.map hmap ++ [tail] ∧ _
    rw [(chunk_file_facts _ _ _).1]
    unfold db_insert_local_file
    dsimp only
    rw [List.map_append]
    refine ⟨_, _, rfl, fun r => ?_, ?_⟩
    · by_cases hi : r.id = s.db.next_file_id <;> simp [hi]
    · simp
  · unfold db_insert_local_file
    dsimp only
    exact ⟨id, _, by rw [List.map_id], fun r => ⟨rfl, rfl, rfl, rfl⟩, rfl, rfl, rfl, rfl⟩

theorem mark_exists_local_files (db : DB) (p : BytePath) :
    (mark_exists db p).local_files = db.local_files.map (fun r =>
      if r.filepath = p then { r with still_exists := true } else r) := rfl

/-- One walk step and the paths of still-present rows: a still-present row
after the step was still present before or sits at the walked path; the
walked path is present afterwards; still-present rows stay present. -/
theorem process_entry_paths (s s' : ScanState) (e : WalkEntry)
    (h : process_entry s e = .ok s') :
    (∀ r' ∈ s'.db.local_files, r'.still_exists = true →
      (∃ r ∈ s.db.local_files, r.filepath = r'.filepath ∧ r.still_exists = true) ∨
        r'.filepath = e.rel_path) ∧
    (∃ r' ∈ s'.db.local_files, r'.filepath = e.rel_path ∧ r'.still_exists = true) ∧
    (∀ r ∈ s.db.local_files, r.still_exists = true →
      ∃ r' ∈ s'.db.local_files, r'.filepath = r.filepath ∧ r'.still_exists = true) := by
  obtain ⟨fs, hfs, hcases⟩ := process_entry_cases s s' e h
  have hfp : fs.filepath = e.rel_path := file_from_stat_filepath e fs hfs
  rcases hcases with ⟨dbf, hload, heq, hs'⟩ | ⟨dbf, hload, hs'⟩ | ⟨hload, hs'⟩
  · subst hs'
    dsimp only
    rw [mark_exists_local_files]
    obtain ⟨r0, hr0, hr0p, _, _⟩ := db_try_load_mem s.db e.rel_path dbf hload
    refine ⟨?_, ?_, ?_⟩
    · rintro r' hr' hstill
      obtain ⟨r, hr, rfl⟩ := List.mem_map.mp hr'
      by_cases hp : r.filepath = e.rel_path
      · right
        simp [hp]
      · left
        rw [if_neg hp] at hstill ⊢
        exact ⟨r, hr, rfl, hstill⟩
    · refine ⟨(fun r => if r.filepath = e.rel_path then { r with still_exists := true } else r) r0,
        List.mem_map_of_mem _ hr0, ?_⟩
      simp [hr0p]
    · intro r hr hstill
      refine ⟨(fun r => if r.filepath = e.rel_path then { r with still_exists := true } else r) r,
        List.mem_map_of_mem _ hr, ?_⟩
      by_cases hp : r.filepath = e.rel_path <;> simp [hp, hstill]
  · subst hs'
    obtain ⟨hmap, hlf, hfacts⟩ := process_changed_some_local_files s e fs dbf
    obtain ⟨r0, hr0, hr0p, _, _⟩ := db_try_load_mem s.db e.rel_path dbf hload
    rw [hlf]
    refine ⟨?_, ?_, ?_⟩
    · rintro r' hr' hstill
      obtain ⟨r, hr, rfl⟩ := List.mem_map.mp hr'
      obtain ⟨hf1, _, hf3, _, _, _⟩ := hfacts r
      rcases hf3 hstill with h1 | h2
      · left
        exact ⟨r, hr, hf1.symm, h1⟩
      · right
        rw [hf1, h2, hfp]
    · obtain ⟨hf1, _, _, _, _, hf6⟩ := hfacts r0
      refine ⟨hmap r0, List.mem_map_of_mem _ hr0, ?_, (hf6 (by rw [hr0p, ← hfp])).1⟩
      rw [hf1, hr0p]
    · intro r hr hstill
      obtain ⟨hf1, _, _, hf4, _, _⟩ := hfacts r
      exact ⟨hmap r, List.mem_map_of_mem _ hr, hf1, hf4 hstill⟩
  · subst hs'
    obtain ⟨hmap, tail, hlf, hfacts, htp, _, hts, _⟩ := process_changed_none_local_files s e fs
    rw [hlf]
    refine ⟨?_, ?_, ?_⟩
    · rintro r' hr' hstill
      rcases List.mem_append.mp hr' with hin | hin
      · obtain ⟨r, hr, rfl⟩ := List.mem_map.mp hin
        obtain ⟨hf1, _, hf3, _⟩ := hfacts r
        left
        refine ⟨r, hr, hf1.symm, ?_⟩
        rw [← hf3]
        exact hstill
      · right
        rw [List.mem_singleton.mp hin, htp, hfp]
    · refine ⟨tail, List.mem_append.mpr (Or.inr (List.mem_singleton.mpr rfl)), ?_, hts⟩
      rw [htp, hfp]
    · intro r hr hstill
      obtain ⟨hf1, _, hf3, _⟩ := hfacts r
      refine ⟨hmap r, List.mem_append.mpr (Or.inl (List.mem_map_of_mem _ hr)), hf1, ?_⟩
      rw [hf3]
      exact hstill

/-- The walk, iterated: characterises which paths are marked still
present after processing a list of entries. -/
theorem walk_entries_paths (es : List WalkEntry) :
    ∀ s s', walk_entries s es = .ok s' →
      (∀ r' ∈ s'.db.local_files, r'.still_exists = true →
        (∃ r ∈ s.db.local_files, r.filepath = r'.filepath ∧ r.still_exists = true) ∨
        (∃ e ∈ es, e.rel_path = r'.filepath)) ∧
      (∀ e ∈ es, ∃ r' ∈ s'.db.local_files, r'.filepath = e.rel_path ∧ r'.still_exists = true) ∧
      (∀ r ∈ s.db.local_files, r.still_exists = true →
        ∃ r' ∈ s'.db.local_files, r'.filepath = r.filepath ∧ r'.still_exists = true) := by
  induction es with
  | nil =>
    intro s s' h
    have hss : s = s' := by
      unfold walk_entries at h
      exact (Except.ok.injEq _ _).mp h
    subst hss
    refine ⟨fun r' hr' hstill => Or.inl ⟨r', hr', rfl, hstill⟩, by simp, ?_⟩
    exact fun r hr hstill => ⟨r, hr, rfl, hstill⟩
  | cons e es ih =>
    intro s s' h
    unfold walk_entries at h
    rcases hpe : process_entry s e with msg | s1
    · rw [hpe] at h
      exact absurd h (by simp)
    · rw [hpe] at h
      dsimp only at h
      obtain ⟨hstep1, hstep2, hstep3⟩ := process_entry_paths s s1 e hpe
      obtain ⟨hw1, hw2, hw3⟩ := ih s1 s' h
      refine ⟨?_, ?_, ?_⟩
      · intro r' hr' hstill
        rcases hw1 r' hr' hstill with ⟨r1, hr1, hp1, hs1⟩ | ⟨e', he', hp'⟩
        · rcases hstep1 r1 hr1 hs1 with ⟨r, hr, hp, hs⟩ | hp
          · exact Or.inl ⟨r, hr, hp.trans hp1, hs⟩
          · exact Or.inr ⟨e, List.mem_cons_self e es, hp.symm.trans hp1⟩
        · exact Or.inr ⟨e', List.mem_cons_of_mem e he', hp'⟩
      · intro e' he'
        rcases List.mem_cons.mp he' with rfl | htail
        · obtain ⟨r1, hr1, hp1, hs1⟩ := hstep2
          obtain ⟨r', hr', hp', hs'⟩ := hw3 r1 hr1 hs1
          exact ⟨r', hr', hp'.trans hp1, hs'⟩
        · exact hw2 e' htail
      · intro r hr hstill
        obtain ⟨r1, hr1, hp1, hs1⟩ := hstep3 r hr hstill
        obtain ⟨r', hr', hp', hs'⟩ := hw3 r1 hr1 hs1
        exact ⟨r', hr', hp'.trans hp1, hs'⟩

theorem mark_all_not_exists_still (db : DB) :
    ∀ r ∈ (mark_all_not_exists db).local_files, r.still_exists = false := by
  intro r hr
  obtain ⟨r0, _, rfl⟩ := List.mem_map.mp hr
  rfl

/-- C7: a completed scan leaves exactly the walked paths in the snapshot —
a path is present after the scan iff some walked entry had that path. -/
theorem scan_snapshot_paths (db : DB) (entries : List WalkEntry) (db2 : DB)
    (hok : refresh_db_from_fs db entries = .ok db2) :
    ∀ p, (∃ row ∈ db2.local_files, row.filepath = p) ↔ (∃ e ∈ entries, e.rel_path = p) := by
  unfold refresh_db_from_fs at hok
  rcases hw : walk_entries { db := mark_all_not_exists db, num_meta := 0, num_hash := 0 } entries
    with msg | sfin
  · rw [hw] at hok
    exact absurd hok (by simp)
  · rw [hw] at hok
    have hdb2 : db2 = garbage_collect_blobs (delete_unused_files sfin.db) :=
      ((Except.ok.injEq _ _).mp hok).symm
    have hlf : db2.local_files = sfin.db.local_files.filter (fun r => r.still_exists) := by
      rw [hdb2]
      rfl
    obtain ⟨hw1, hw2, _⟩ := walk_entries_paths entries _ sfin hw
    intro p
    constructor
    · rintro ⟨row, hrow, rfl⟩
      rw [hlf] at hrow
      obtain ⟨hmem, hstill⟩ := List.mem_filter.mp hrow
      rcases hw1 row hmem (by simpa using hstill) with ⟨r, hr, _, hs⟩ | ⟨e, he, hp⟩
      · exact absurd hs (by rw [mark_all_not_exists_still db r hr]; simp)
      · exact ⟨e, he, hp⟩
    · rintro ⟨e, he, rfl⟩
      obtain ⟨r', hr', hp', hs'⟩ := hw2 e he
      refine ⟨r', ?_, hp'⟩
      rw [hlf]
      exact List.mem_filter.mpr ⟨hr', by simp [hs']⟩

theorem scan_snapshot_paths_witness :
    (refresh_db_from_fs dbC7 [eC7] = .ok db2C7) ∧
    ((∃ row ∈ db2C7.local_files, row.filepath = [2]) ↔ (∃ e ∈ [eC7], e.rel_path = [2])) := by
  have hok : refresh_db_from_fs dbC7 [eC7] = .ok db2C7 := rfl
  exact ⟨hok, scan_snapshot_paths dbC7 [eC7] db2C7 hok [2]⟩

/-- The file-to-block association rows after one `process_changed`: each
is an old row or references the upserted file's id. -/
theorem process_changed_assoc (s : ScanState) (e : WalkEntry) (fs : FileMeta)
    (dbf : Option DBFileMeta) :
    (∀ fb ∈ (process_changed s e fs dbf).db.local_file_blobs,
      fb ∈ s.db.local_file_blobs ∨
        fb.1 = (match dbf with | some d => d.id | none => s.db.next_file_id)) ∧
    (process_changed s e fs dbf).db.remote_file_blobs = s.db.remote_file_blobs := by
  unfold process_changed
  rcases dbf with _ | d <;> dsimp only <;> split
  · constructor
    · intro fb hfb
      rw [(chunk_file_facts _ _ _).2.1] at hfb
      rcases List.mem_append.mp hfb with hin | hin
      · exact Or.inl (List.mem_of_mem_filter hin)
      · obtain ⟨bid, _, rfl⟩ := List.mem_map.mp hin
        exact Or.inr rfl
    · rw [(chunk_file_facts _ _ _).2.2]
      rfl
  · exact ⟨fun fb hfb => Or.inl hfb, rfl⟩
  · constructor
    · intro fb hfb
      rw [(chunk_file_facts _ _ _).2.1] at hfb
      rcases List.mem_append.mp hfb with hin | hin
      · exact Or.inl (List.mem_of_mem_filter hin)
      · obtain ⟨bid, _, rfl⟩ := List.mem_map.mp hin
        exact Or.inr rfl
    · rw [(chunk_file_facts _ _ _).2.2]
      rfl
  · exact ⟨fun fb hfb => Or.inl hfb, rfl⟩

/-- One walk step preserves the association-table integrity (every
association row names an existing file row) and never touches the remote
association table. -/
theorem process_entry_integrity (s s' : ScanState) (e : WalkEntry)
    (h : process_entry s e = .ok s')
    (hint : ∀ fb ∈ s.db.local_file_blobs, ∃ r ∈ s.db.local_files, r.id = fb.1) :
    (∀ fb ∈ s'.db.local_file_blobs, ∃ r ∈ s'.db.local_files, r.id = fb.1) ∧
    s'.db.remote_file_blobs = s.db.remote_file_blobs := by
  obtain ⟨fs, hfs, hcases⟩ := process_entry_cases s s' e h
  rcases hcases with ⟨dbf, hload, heq, hs'⟩ | ⟨dbf, hload, hs'⟩ | ⟨hload, hs'⟩
  · subst hs'
    dsimp only
    refine ⟨?_, rfl⟩
    intro fb hfb
    obtain ⟨r, hr, hrid⟩ := hint fb hfb
    rw [mark_exists_local_files]
    refine ⟨(fun r => if r.filepath = e.rel_path then { r with still_exists := true } else r) r,
      List.mem_map_of_mem _ hr, ?_⟩
    by_cases hp : r.filepath = e.rel_path <;> simp [hp, hrid]
  · subst hs'
    obtain ⟨hmap, hlf, hfacts⟩ := process_changed_some_local_files s e fs dbf
    obtain ⟨hassoc, hremote⟩ := process_changed_assoc s e fs (some dbf)
    refine ⟨?_, hremote⟩
    intro fb hfb
    rcases hassoc fb hfb with hin | hid
    · obtain ⟨r, hr, hrid⟩ := hint fb hin
      rw [hlf]
      exact ⟨hmap r, List.mem_map_of_mem _ hr, by rw [(hfacts r).2.1, hrid]⟩
    · obtain ⟨r0, hr0, _, hid0, _⟩ := db_try_load_mem s.db e.rel_path dbf hload
      dsimp only at hid
      rw [hlf]
      refine ⟨hmap r0, List.mem_map_of_mem _ hr0, ?_⟩
      rw [(hfacts r0).2.1, ← hid0, ← hid]
  · subst hs'
    obtain ⟨hmap, tail, hlf, hfacts, _, hti, _, _⟩ := process_changed_none_local_files s e fs
    obtain ⟨hassoc, hremote⟩ := process_changed_assoc s e fs none
    refine ⟨?_, hremote⟩
    intro fb hfb
    rcases hassoc fb hfb with hin | hid
    · obtain ⟨r, hr, hrid⟩ := hint fb hin
      rw [hlf]
      exact ⟨hmap r, List.mem_append.mpr (Or.inl (List.mem_map_of_mem _ hr)),
        by rw [(hfacts r).2.1, hrid]⟩
    · dsimp only at hid
      rw [hlf]
      refine ⟨tail, List.mem_append.mpr (Or.inr (List.mem_singleton.mpr rfl)), ?_⟩
      rw [hti, ← hid]

theorem walk_entries_integrity (es : List WalkEntry) :
    ∀ s s', walk_entries s es = .ok s' →
      (∀ fb ∈ s.db.local_file_blobs, ∃ r ∈ s.db.local_files, r.id = fb.1) →
      (∀ fb ∈ s'.db.local_file_blobs, ∃ r ∈ s'.db.local_files, r.id = fb.1) ∧
      s'.db.remote_file_blobs = s.db.remote_file_blobs := by
  induction es with
  | nil =>
    intro s s' h hint
    have hss : s = s' := by
      unfold walk_entries at h
      exact (Except.ok.injEq _ _).mp h
    subst hss
    exact ⟨hint, rfl⟩
  | cons e es ih =>
    intro s s' h hint
    unfold walk_entries at h
    rcases hpe : process_entry s e with msg | s1
    · rw [hpe] at h
      exact absurd h (by simp)
    · rw [hpe] at h
      dsimp only at h
      obtain ⟨hint1, hrem1⟩ := process_entry_integrity s s1 e hpe hint
      obtain ⟨hint2, hrem2⟩ := ih s1 s' h hint1
      exact ⟨hint2, hrem2.trans hrem1⟩

theorem mark_all_not_exists_integrity (db : DB)
    (hint : ∀ fb ∈ db.local_file_blobs, ∃ r ∈ db.local_files, r.id = fb.1) :
    ∀ fb ∈ (mark_all_not_exists db).local_file_blobs,
      ∃ r ∈ (mark_all_not_exists db).local_files, r.id = fb.1 := by
  intro fb hfb
  obtain ⟨r, hr, hrid⟩ := hint fb hfb
  exact ⟨{ r with still_exists := false }, List.mem_map_of_mem _ hr, hrid⟩

/-- The sweep keeps the association table consistent: every surviving
association row names a surviving file row. -/
theorem delete_unused_files_integrity (db : DB)
    (hint : ∀ fb ∈ db.local_file_blobs, ∃ r ∈ db.local_files, r.id = fb.1) :
    ∀ fb ∈ (delete_unused_files db).local_file_blobs,
      ∃ r ∈ (delete_unused_files db).local_files, r.id = fb.1 := by
  intro fb hfb
  unfold delete_unused_files at hfb ⊢
  dsimp only at hfb ⊢
  obtain ⟨hin, hkeep⟩ := List.mem_filter.mp hfb
  obtain ⟨r, hr, hrid⟩ := hint fb hin
  have hstill : r.still_exists = true := by
    by_contra hc
    have hdel : r.id ∈ ((db.local_files.filter (fun r => !r.still_exists)).map (fun r => r.id)) :=
      List.mem_map_of_mem _ (List.mem_filter.mpr ⟨hr, by simp [hc]⟩)
    rw [hrid] at hdel
    simp only [Bool.not_eq_true', List.contains_eq_any_beq, List.any_eq_false] at hkeep
    exact hkeep fb.1 hdel (by simp)
  exact ⟨r, List.mem_filter.mpr ⟨hr, by simp [hstill]⟩, hrid⟩

/-- C8: after a completed scan (whose final step is the blob garbage
collection), every remaining blob row is referenced — through the
association table — by a surviving local file, or by a remote
association; no orphan blob remains. -/
theorem no_orphan_blobs_after_scan (db : DB) (entries : List WalkEntry) (db2 : DB)
    (hint : ∀ fb ∈ db.local_file_blobs, ∃ r ∈ db.local_files, r.id = fb.1)
    (hok : refresh_db_from_fs db entries = .ok db2) :
    ∀ b ∈ db2.blobs,
      (∃ fb ∈ db2.local_file_blobs, fb.2 = b.id ∧ ∃ r ∈ db2.local_files, r.id = fb.1) ∨
      (∃ fb ∈ db2.remote_file_blobs, fb.2 = b.id) := by
  unfold refresh_db_from_fs at hok
  rcases hw : walk_entries { db := mark_all_not_exists db, num_meta := 0, num_hash := 0 } entries
    with msg | sfin
  · rw [hw] at hok
    exact absurd hok (by simp)
  · rw [hw] at hok
    have hdb2 : db2 = garbage_collect_blobs (delete_unused_files sfin.db) :=
      ((Except.ok.injEq _ _).mp hok).symm
    obtain ⟨hintw, _⟩ := walk_entries_integrity entries _ sfin hw
      (mark_all_not_exists_integrity db hint)
    have hints : ∀ fb ∈ (delete_unused_files sfin.db).local_file_blobs,
        ∃ r ∈ (delete_unused_files sfin.db).local_files, r.id = fb.1 :=
      delete_unused_files_integrity sfin.db hintw
    intro b hb
    have hb2 : b ∈ (delete_unused_files sfin.db).blobs.filter (fun b =>
        (delete_unused_files sfin.db).local_file_blobs.any (fun fb => fb.2 == b.id) ||
        (delete_unused_files sfin.db).remote_file_blobs.any (fun fb => fb.2 == b.id)) := by
      rw [hdb2] at hb
      exact hb
    obtain ⟨_, hpred⟩ := List.mem_filter.mp hb2
    rw [Bool.or_eq_true, List.any_eq_true, List.any_eq_true] at hpred
    have hflocal : db2.local_file_blobs = (delete_unused_files sfin.db).local_file_blobs := by
      rw [hdb2]
      rfl
    have hflocal2 : db2.local_files = (delete_unused_files sfin.db).local_files := by
      rw [hdb2]
      rfl
    have hfremote : db2.remote_file_blobs = (delete_unused_files sfin.db).remote_file_blobs := by
      rw [hdb2]
      rfl
    rcases hpred with ⟨fb, hfb, hfbid⟩ | ⟨fb, hfb, hfbid⟩
    · left
      obtain ⟨r, hr, hrid⟩ := hints fb hfb
      rw [hflocal, hflocal2]
      exact ⟨fb, hfb, by simpa using hfbid, r, hr, hrid⟩
    · right
      rw [hfremote]
      exact ⟨fb, hfb, by simpa using hfbid⟩

theorem no_orphan_blobs_after_scan_witness :
    (∀ fb ∈ dbC8.local_file_blobs, ∃ r ∈ dbC8.local_files, r.id = fb.1) ∧
    (refresh_db_from_fs dbC8 [eC8] = .ok db2C8) ∧
    (∀ b ∈ db2C8.blobs,
      (∃ fb ∈ db2C8.local_file_blobs, fb.2 = b.id ∧ ∃ r ∈ db2C8.local_files, r.id = fb.1) ∨
      (∃ fb ∈ db2C8.remote_file_blobs, fb.2 = b.id)) := by
  have hok : refresh_db_from_fs dbC8 [eC8] = .ok db2C8 := rfl
  exact ⟨by decide, hok, no_orphan_blobs_after_scan dbC8 [eC8] db2C8 (by decide) hok⟩

theorem db_try_load_none (db : DB) (p : BytePath)
    (h : db_try_load_local_file db p = none) :
    ∀ r ∈ db.local_files, r.filepath ≠ p := by
  unfold db_try_load_local_file at h
  rcases hf : db.local_files.find? (fun r => r.filepath == p) with _ | r0
  · intro r hr hp
    have := List.find?_eq_none.mp hf r hr
    simp [hp] at this
  · rw [hf] at h
    simp at h

/-- One walk step of a non-directory entry preserves path uniqueness of
the snapshot and the invariant that every still-present row is regular or
a symlink. -/
theorem process_entry_kinds (s s' : ScanState) (e : WalkEntry)
    (h : process_entry s e = .ok s') (hd : e.st.mode ≠ StatKind.dir)
    (hnd : (s.db.local_files.map (fun r => r.filepath)).Nodup)
    (hinv : ∀ r ∈ s.db.local_files, r.still_exists = true →
      r.kind = FileKind.REGULAR ∨ r.kind = FileKind.LINK) :
    ((s'.db.local_files.map (fun r => r.filepath)).Nodup) ∧
    (∀ r ∈ s'.db.local_files, r.still_exists = true →
      r.kind = FileKind.REGULAR ∨ r.kind = FileKind.LINK) := by
  obtain ⟨fs, hfs, hcases⟩ := process_entry_cases s s' e h
  have hfp : fs.filepath = e.rel_path := file_from_stat_filepath e fs hfs
  have hfk : fs.kind = FileKind.REGULAR ∨ fs.kind = FileKind.LINK :=
    file_from_stat_kind e fs hfs hd
  rcases hcases with ⟨dbf, hload, heq, hs'⟩ | ⟨dbf, hload, hs'⟩ | ⟨hload, hs'⟩
  · subst hs'
    dsimp only
    rw [mark_exists_local_files]
    obtain ⟨r0, hr0, hr0p, _, hk0⟩ := db_try_load_mem s.db e.rel_path dbf hload
    have hkind0 : fs.kind = dbf.kind := by
      simp only [eq_metadata, Bool.and_eq_true, beq_iff_eq] at heq
      exact heq.1.1.1.1.1.1.2
    constructor
    · rw [List.map_map]
      have hcong : ((fun r => r.filepath) ∘ (fun r =>
          if r.filepath = e.rel_path then { r with still_exists := true } else r)) =
          (fun r : LocalFileRow => r.filepath) := by
        funext r
        by_cases hp : r.filepath = e.rel_path <;> simp [hp]
      rw [hcong]
      exact hnd
    · rintro r' hr' hstill
      obtain ⟨r, hr, rfl⟩ := List.mem_map.mp hr'
      by_cases hp : r.filepath = e.rel_path
      · have hrr0 : r = r0 := List.inj_on_of_nodup_map hnd hr hr0 (by rw [hp, hr0p])
        rw [if_pos hp]
        have : r.kind = fs.kind := by
          rw [hrr0, ← hk0, ← hkind0]
        simp only [this]
        exact hfk
      · rw [if_neg hp] at hstill ⊢
        exact hinv r hr hstill
  · subst hs'
    obtain ⟨hmap, hlf, hfacts⟩ := process_changed_some_local_files s e fs dbf
    rw [hlf]
    constructor
    · rw [List.map_map]
      have hcong : ((fun r => r.filepath) ∘ hmap) = (fun r : LocalFileRow => r.filepath) := by
        funext r
        exact (hfacts r).1
      rw [hcong]
      exact hnd
    · rintro r' hr' hstill
      obtain ⟨r, hr, rfl⟩ := List.mem_map.mp hr'
      by_cases hp : r.filepath = fs.filepath
      · rw [((hfacts r).2.2.2.2.2 hp).2]
        exact hfk
      · rcases (hfacts r).2.2.2.2.1 with hk | hk
        · rw [hk]
          rcases (hfacts r).2.2.1 hstill with hstill0 | hpc
          · exact hinv r hr hstill0
          · exact absurd hpc hp
        · rw [hk]
          exact hfk
  · subst hs'
    obtain ⟨hmap, tail, hlf, hfacts, htp, _, _, htk⟩ := process_changed_none_local_files s e fs
    rw [hlf]
    have hfresh := db_try_load_none s.db e.rel_path hload
    constructor
    · rw [List.map_append, List.map_map]
      have hcong : ((fun r => r.filepath) ∘ hmap) = (fun r : LocalFileRow => r.filepath) := by
        funext r
        exact (hfacts r).1
      rw [hcong]
      simp only [List.map_cons, List.map_nil]
      rw [List.nodup_append]
      refine ⟨hnd, List.nodup_singleton _, ?_⟩
      intro p hp hptail
      obtain ⟨r, hr, rfl⟩ := List.mem_map.mp hp
      simp only [List.mem_singleton] at hptail
      exact hfresh r hr (by rw [hptail, htp, hfp])
    · rintro r' hr' hstill
      rcases List.mem_append.mp hr' with hin | hin
      · obtain ⟨r, hr, rfl⟩ := List.mem_map.mp hin
        rw [(hfacts r).2.2.2]
        rw [(hfacts r).2.2.1] at hstill
        exact hinv r hr hstill
      · rw [List.mem_singleton.mp hin, htk]
        exact hfk

theorem walk_entries_kinds (es : List WalkEntry) :
    ∀ s s', walk_entries s es = .ok s' → (∀ e ∈ es, e.st.mode ≠ StatKind.dir) →
      ((s.db.local_files.map (fun r => r.filepath)).Nodup) →
      (∀ r ∈ s.db.local_files, r.still_exists = true →
        r.kind = FileKind.REGULAR ∨ r.kind = FileKind.LINK) →
      ∀ r ∈ s'.db.local_files, r.still_exists = true →
        r.kind = FileKind.REGULAR ∨ r.kind = FileKind.LINK := by
  induction es with
  | nil =>
    intro s s' h _ _ hinv
    have hss : s = s' := by
      unfold walk_entries at h
      exact (Except.ok.injEq _ _).mp h
    subst hss
    exact hinv
  | cons e es ih =>
    intro s s' h hdirs hnd hinv
    unfold walk_entries at h
    rcases hpe : process_entry s e with msg | s1
    · rw [hpe] at h
      exact absurd h (by simp)
    · rw [hpe] at h
      dsimp only at h
      obtain ⟨hnd1, hinv1⟩ := process_entry_kinds s s1 e hpe
        (hdirs e (List.mem_cons_self e es)) hnd hinv
      exact ih s1 s' h (fun e' he' => hdirs e' (List.mem_cons_of_mem e he')) hnd1 hinv1

/-- C10: a completed scan over non-directory walk entries leaves only
regular-file and symlink records in the snapshot — no directory record
survives, whatever the prior snapshot held. -/
theorem snapshot_kinds_regular_or_link (db : DB) (entries : List WalkEntry) (db2 : DB)
    (hnd : (db.local_files.map (fun r => r.filepath)).Nodup)
    (hdirs : walk_yields_no_directory entries)
    (hok : refresh_db_from_fs db entries = .ok db2) :
    ∀ row ∈ db2.local_files, row.kind = FileKind.REGULAR ∨ row.kind = FileKind.LINK := by
  unfold refresh_db_from_fs at hok
  rcases hw : walk_entries { db := mark_all_not_exists db, num_meta := 0, num_hash := 0 } entries
    with msg | sfin
  · rw [hw] at hok
    exact absurd hok (by simp)
  · rw [hw] at hok
    have hdb2 : db2 = garbage_collect_blobs (delete_unused_files sfin.db) :=
      ((Except.ok.injEq _ _).mp hok).symm
    have hnd0 : ((mark_all_not_exists db).local_files.map (fun r => r.filepath)).Nodup := by
      unfold mark_all_not_exists
      dsimp only
      rw [List.map_map]
      exact hnd
    have hinv0 : ∀ r ∈ (mark_all_not_exists db).local_files, r.still_exists = true →
        r.kind = FileKind.REGULAR ∨ r.kind = FileKind.LINK := by
      intro r hr hstill
      rw [mark_all_not_exists_still db r hr] at hstill
      exact absurd hstill (by simp)
    have hinv := walk_entries_kinds entries _ sfin hw hdirs hnd0 hinv0
    intro row hrow
    have hlf : db2.local_files = sfin.db.local_files.filter (fun r => r.still_exists) := by
      rw [hdb2]
      rfl
    rw [hlf] at hrow
    obtain ⟨hmem, hstill⟩ := List.mem_filter.mp hrow
    exact hinv row hmem (by simpa using hstill)

theorem snapshot_kinds_regular_or_link_witness :
    ((dbC10.local_files.map (fun r => r.filepath)).Nodup) ∧
    (walk_yields_no_directory [eC10a, eC10b]) ∧
    (refresh_db_from_fs dbC10 [eC10a, eC10b] = .ok db2C10) ∧
    (∀ row ∈ db2C10.local_files, row.kind = FileKind.REGULAR ∨ row.kind = FileKind.LINK) := by
  have hok : refresh_db_from_fs dbC10 [eC10a, eC10b] = .ok db2C10 := rfl
  refine ⟨by decide, ?_, hok, ?_⟩
  · intro e he
    fin_cases he <;> decide
  · exact snapshot_kinds_regular_or_link dbC10 [eC10a, eC10b] db2C10 (by decide)
      (by intro e he; fin_cases he <;> decide) hok

/-! ## Lemmas about the bundle ordering -/

theorem pathLe_refl : ∀ a : List Nat, pathLe a a = true := by
  intro a
  induction a with
  | nil => rfl
  | cons x xs ih =>
    unfold pathLe
    simp [Nat.lt_irrefl, ih]

theorem pathLe_total : ∀ a b : List Nat, pathLe a b = true ∨ pathLe b a = true := by
  intro a
  induction a with
  | nil => intro b; left; rfl
  | cons x xs ih =>
    intro b
    cases b with
    | nil => right; rfl
    | cons y ys =>
      unfold pathLe
      rcases Nat.lt_trichotomy x y with h | h | h
      · left
        simp [h]
      · subst h
        simp only [Nat.lt_irrefl, if_false]
        exact ih ys
      · right
        simp [h, Nat.lt_asymm h]

theorem pathLe_trans :
    ∀ a b c : List Nat, pathLe a b = true → pathLe b c = true → pathLe a c = true := by
  intro a
  induction a with
  | nil => intro b c _ _; rfl
  | cons x xs ih =>
    intro b c hab hbc
    cases b with
    | nil => exact absurd hab (by simp [pathLe])
    | cons y ys =>
      cases c with
      | nil => exact absurd hbc (by simp [pathLe])
      | cons z zs =>
        unfold pathLe at hab hbc ⊢
        rcases Nat.lt_trichotomy x y with hxy | hxy | hxy
        · rcases Nat.lt_trichotomy y z with hyz | hyz | hyz
          · simp [Nat.lt_trans hxy hyz]
          · subst hyz
            simp [hxy]
          · rw [if_neg (by omega), if_pos hyz] at hbc
            exact absurd hbc (by simp)
        · subst hxy
          rw [if_neg (Nat.lt_irrefl x), if_neg (Nat.lt_irrefl x)] at hab
          rcases Nat.lt_trichotomy x z with hxz | hxz | hxz
          · simp [hxz]
          · subst hxz
            rw [if_neg (Nat.lt_irrefl x), if_neg (Nat.lt_irrefl x)] at hbc ⊢
            exact ih ys zs hab hbc
          · rw [if_neg (by omega), if_pos hxz] at hbc
            exact absurd hbc (by simp)
        · rw [if_neg (by omega), if_pos hxy] at hab
          exact absurd hab (by simp)

theorem optPathLe_total :
    ∀ a b : Option (List Nat), optPathLe a b = true ∨ optPathLe b a = true := by
  intro a b
  cases a <;> cases b <;> simp [optPathLe]
  exact pathLe_total _ _

theorem optPathLe_trans : ∀ a b c : Option (List Nat),
    optPathLe a b = true → optPathLe b c = true → optPathLe a c = true := by
  intro a b c hab hbc
  cases a <;> cases b <;> cases c <;> simp [optPathLe] at hab hbc ⊢
  exact pathLe_trans _ _ _ hab hbc

theorem mem_insertSorted {α : Type} (le : α → α → Bool) (a x : α) :
    ∀ l, (x ∈ insertSorted le a l ↔ x = a ∨ x ∈ l) := by
  intro l
  induction l with
  | nil => simp [insertSorted]
  | cons b bs ih =>
    unfold insertSorted
    split
    · simp [List.mem_cons]
    · rw [List.mem_cons, ih, List.mem_cons]
      tauto

theorem pairwise_insertSorted {α : Type} (le : α → α → Bool)
    (htot : ∀ x y, le x y = true ∨ le y x = true)
    (htr : ∀ x y z, le x y = true → le y z = true → le x z = true) (a : α) :
    ∀ l, l.Pairwise (fun x y => le x y = true) →
      (insertSorted le a l).Pairwise (fun x y => le x y = true) := by
  intro l
  induction l with
  | nil =>
    intro _
    simp [insertSorted]
  | cons b bs ih =>
    intro hp
    rw [List.pairwise_cons] at hp
    unfold insertSorted
    split
    · rename_i hab
      rw [List.pairwise_cons]
      refine ⟨?_, List.pairwise_cons.mpr hp⟩
      intro x hx
      rcases List.mem_cons.mp hx with rfl | hxs
      · exact hab
      · exact htr a b x hab (hp.1 x hxs)
    · rename_i hab
      have hba : le b a = true := by
        rcases htot a b with h | h
        · exact absurd h hab
        · exact h
      rw [List.pairwise_cons]
      refine ⟨?_, ih hp.2⟩
      intro x hx
      rcases (mem_insertSorted le a x bs).mp hx with rfl | hxs
      · exact hba
      · exact hp.1 x hxs

theorem mem_sortByKey {α : Type} (le : α → α → Bool) (x : α) :
    ∀ l, (x ∈ sortByKey le l ↔ x ∈ l) := by
  intro l
  induction l with
  | nil => simp [sortByKey]
  | cons b bs ih =>
    show x ∈ insertSorted le b (sortByKey le bs) ↔ _
    rw [mem_insertSorted, ih, List.mem_cons]

theorem pairwise_sortByKey {α : Type} (le : α → α → Bool)
    (htot : ∀ x y, le x y = true ∨ le y x = true)
    (htr : ∀ x y z, le x y = true → le y z = true → le x z = true) :
    ∀ l, (sortByKey le l).Pairwise (fun x y => le x y = true) := by
  intro l
  induction l with
  | nil => simp [sortByKey]
  | cons b bs ih => exact pairwise_insertSorted le htot htr b _ ih

theorem pathMin2_le_left (a b : List Nat) : pathLe (pathMin2 a b) a = true := by
  unfold pathMin2
  split
  · exact pathLe_refl a
  · rename_i h
    rcases pathLe_total a b with h1 | h1
    · exact absurd h1 h
    · exact h1

theorem pathMin2_le_right (a b : List Nat) : pathLe (pathMin2 a b) b = true := by
  unfold pathMin2
  split
  · rename_i h
    exact h
  · exact pathLe_refl b

theorem pathMin2_mem (a b : List Nat) : pathMin2 a b = a ∨ pathMin2 a b = b := by
  unfold pathMin2
  split
  · exact Or.inl rfl
  · exact Or.inr rfl

theorem foldl_pathMin2 : ∀ (ps : List (List Nat)) (p : List Nat),
    ((ps.foldl pathMin2 p = p) ∨ ps.foldl pathMin2 p ∈ ps) ∧
    pathLe (ps.foldl pathMin2 p) p = true ∧
    (∀ q ∈ ps, pathLe (ps.foldl pathMin2 p) q = true) := by
  intro ps
  induction ps with
  | nil =>
    intro p
    exact ⟨Or.inl rfl, pathLe_refl p, by simp⟩
  | cons a as ih =>
    intro p
    obtain ⟨hmem, hle, hall⟩ := ih (pathMin2 p a)
    simp only [List.foldl_cons]
    refine ⟨?_, ?_, ?_⟩
    · rcases hmem with h | h
      · rcases pathMin2_mem p a with h2 | h2
        · exact Or.inl (h.trans h2)
        · exact Or.inr (by rw [h, h2]; exact List.mem_cons_self a as)
      · exact Or.inr (List.mem_cons_of_mem a h)
    · exact pathLe_trans _ _ _ hle (pathMin2_le_left p a)
    · intro q hq
      rcases List.mem_cons.mp hq with rfl | hq2
      · exact pathLe_trans _ _ _ hle (pathMin2_le_right p q)
      · exact hall q hq2

theorem pathsMin_spec (l : List (List Nat)) (m : List Nat) (h : pathsMin l = some m) :
    m ∈ l ∧ ∀ q ∈ l, pathLe m q = true := by
  cases l with
  | nil => simp [pathsMin] at h
  | cons p ps =>
    unfold pathsMin at h
    have hm : ps.foldl pathMin2 p = m := (Option.some.injEq _ _).mp h
    obtain ⟨hmem, hle, hall⟩ := foldl_pathMin2 ps p
    rw [hm] at hmem hle hall
    constructor
    · rcases hmem with h2 | h2
      · rw [h2]
        exact List.mem_cons_self p ps
      · exact List.mem_cons_of_mem p h2
    · intro q hq
      rcases List.mem_cons.mp hq with rfl | hq2
      · exact hle
      · exact hall q hq2

/-- C9: every `ordered_blobs` row carries the lexicographically smallest
path referencing its blob; every referenced blob gets a row; the blob rows
are ordered by that path and the bundle rows by the smallest member path;
and recomputing the ordering over the same file, association, blob and
bundle tables reproduces it exactly. -/
theorem bundle_ordering_min_path (db db' : DB)
    (h1 : db'.local_files = db.local_files)
    (h2 : db'.local_file_blobs = db.local_file_blobs)
    (h3 : db'.blobs = db.blobs)
    (h4 : db'.bundles = db.bundles) :
    (∀ b ∈ db.blobs, joined_paths db b.id ≠ [] → ∃ r ∈ ordered_blobs db, r.blob_id = b.id) ∧
    (∀ r ∈ ordered_blobs db, r.filepath ∈ joined_paths db r.blob_id ∧
      ∀ q ∈ joined_paths db r.blob_id, pathLe r.filepath q = true) ∧
    (ordered_blobs db).Pairwise (fun x y => pathLe x.filepath y.filepath = true) ∧
    (ordered_bundles db).Pairwise (fun x y => optPathLe x.min_filepath y.min_filepath = true) ∧
    (ordered_blobs db' = ordered_blobs db ∧ ordered_bundles db' = ordered_bundles db) := by
  refine ⟨?_, ?_, ?_, ?_, ?_⟩
  · intro b hb hjp
    unfold ordered_blobs
    have hfb : ∃ fb ∈ db.local_file_blobs, (fb.2 == b.id) = true := by
      by_contra hc
      push_neg at hc
      apply hjp
      unfold joined_paths
      rw [List.filter_eq_nil_iff.mpr (by intro fb hfb2; simpa using hc fb hfb2)]
      rfl
    obtain ⟨fb, hfbmem, hfbid⟩ := hfb
    have hdedup : b.id ∈ (db.local_file_blobs.map (fun fb => fb.2)).dedup := by
      rw [List.mem_dedup]
      exact List.mem_map.mpr ⟨fb, hfbmem, by simpa using hfbid⟩
    have hfind : ∃ b2, db.blobs.find? (fun x => x.id == b.id) = some b2 := by
      have : (db.blobs.find? (fun x => x.id == b.id)).isSome := by
        rw [List.find?_isSome]
        exact ⟨b, hb, by simp⟩
      exact Option.isSome_iff_exists.mp this
    obtain ⟨b2, hb2⟩ := hfind
    have hpm : ∃ mp, pathsMin (joined_paths db b.id) = some mp := by
      rcases hj : joined_paths db b.id with _ | ⟨p, ps⟩
      · exact absurd hj hjp
      · exact ⟨ps.foldl pathMin2 p, rfl⟩
    obtain ⟨mp, hmp⟩ := hpm
    refine ⟨{ blob_id := b.id
              filepath := mp
              bundle_uuid := b2.bundle_uuid
              hash := b2.hash
              size := b2.size }, ?_, rfl⟩
    rw [mem_sortByKey]
    exact List.mem_filterMap.mpr ⟨b.id, hdedup, by rw [hb2, hmp]⟩
  · intro r hr
    unfold ordered_blobs at hr
    rw [mem_sortByKey] at hr
    obtain ⟨bid, _, hsome⟩ := List.mem_filterMap.mp hr
    rcases hf : db.blobs.find? (fun x => x.id == bid) with _ | b <;> rw [hf] at hsome
    · simp at hsome
    · rcases hpm : pathsMin (joined_paths db bid) with _ | mp <;> rw [hpm] at hsome
      · simp at hsome
      · have hrr : r =
            { blob_id := bid
              filepath := mp
              bundle_uuid := b.bundle_uuid
              hash := b.hash
              size := b.size } := ((Option.some.injEq _ _).mp hsome).symm
        obtain ⟨hmem, hall⟩ := pathsMin_spec _ _ hpm
        rw [hrr]
        exact ⟨hmem, hall⟩
  · exact pairwise_sortByKey
      (fun x y : OrderedBlobRow => pathLe x.filepath y.filepath)
      (fun x y => pathLe_total x.filepath y.filepath)
      (fun x y z => pathLe_trans x.filepath y.filepath z.filepath) _
  · exact pairwise_sortByKey
      (fun x y : OrderedBundleRow => optPathLe x.min_filepath y.min_filepath)
      (fun x y => optPathLe_total x.min_filepath y.min_filepath)
      (fun x y z => optPathLe_trans x.min_filepath y.min_filepath z.min_filepath) _
  · have hjp : ∀ bid, joined_paths db' bid = joined_paths db bid := by
      intro bid
      unfold joined_paths
      rw [h1, h2]
    have hob : ordered_blobs db' = ordered_blobs db := by
      unfold ordered_blobs
      simp only [h2, h3, hjp]
    refine ⟨hob, ?_⟩
    unfold ordered_bundles
    rw [h4, hob]

theorem bundle_ordering_min_path_witness :
    ((∀ b ∈ dbC9.blobs, joined_paths dbC9 b.id ≠ [] →
        ∃ r ∈ ordered_blobs dbC9, r.blob_id = b.id) ∧
    (∀ r ∈ ordered_blobs dbC9, r.filepath ∈ joined_paths dbC9 r.blob_id ∧
      ∀ q ∈ joined_paths dbC9 r.blob_id, pathLe r.filepath q = true) ∧
    (ordered_blobs dbC9).Pairwise (fun x y => pathLe x.filepath y.filepath = true) ∧
    (ordered_bundles dbC9).Pairwise
      (fun x y => optPathLe x.min_filepath y.min_filepath = true) ∧
    (ordered_blobs dbC9 = ordered_blobs dbC9 ∧
     ordered_bundles dbC9 = ordered_bundles dbC9)) :=
  bundle_ordering_min_path dbC9 dbC9 rfl rfl rfl rfl

end Replicator
